import Mathlib

/-!
Verification of the Recova recommendation engine
(`backend/app/algorithms/collaborative.py`, `backend/app/algorithms/content_based.py`,
`backend/app/api/recommendations.py`) against its natural-language specification.

The Python code is shallowly embedded: pandas/SQL data is modelled by explicit
lists, numeric scores by `ℚ` where the computation is exact arithmetic and by
`ℝ` where it involves cosine similarity (square roots).  Stable sorts model
Python's `sorted`/`list.sort` (stable, `reverse=True` keeps the original order
of ties) and numpy/pandas argsort-based ordering (stable ascending argsort,
reversed for descending, which is what `Series.sort_values(ascending=False)`
and `ndarray.argsort()[::-1]` perform for the array sizes at hand).
-/

namespace Recova

/-! ### Data model (`app/models.py`, `app/schemas.py`)

Interaction types are `view`, `purchase`, `rating`, `wishlist`; ratings are
validated at the ingestion boundary to lie in `[1,5]`.  The `rating` field of
an interaction is only meaningful when its type is `rating`. -/

inductive IType : Type
  | view
  | purchase
  | rate
  | wishlist
deriving DecidableEq, Repr

structure Interaction where
  user_id : Nat
  product_id : Nat
  itype : IType
  rating : ℚ
  timestamp : Nat
deriving DecidableEq, Repr

structure Product where
  id : Nat
  title : String
  category : String
  price : ℚ
  description : String
  rating : Option ℚ
  review_count : Nat
deriving DecidableEq, Repr

instance : Inhabited Product :=
  ⟨{ id := 0, title := "", category := "", price := 0, description := "",
     rating := none, review_count := 0 }⟩

/-! ### Maximum of a list of rationals

`listMax1 []` is `0` (the `fill_value` of the pivot table); on a non-empty
list it is the maximum of the entries, matching `aggfunc=max` in
`pivot_table` and `Series.max()`. -/

def listMax1 : List ℚ → ℚ
  | [] => 0
  | [a] => a
  | a :: b :: t => max a (listMax1 (b :: t))

theorem le_listMax1_of_mem {x : ℚ} : ∀ {l : List ℚ}, x ∈ l → x ≤ listMax1 l
  | [a], h => by
    rcases List.mem_singleton.mp h with rfl
    exact le_of_eq rfl
  | a :: b :: t, h => by
    rcases List.mem_cons.mp h with rfl | h
    · exact le_max_left _ _
    · exact le_trans (le_listMax1_of_mem h) (le_max_right _ _)

theorem listMax1_mem : ∀ {l : List ℚ}, l ≠ [] → listMax1 l ∈ l
  | [], h => absurd rfl h
  | [a], _ => List.mem_singleton.mpr rfl
  | a :: b :: t, _ => by
    rcases max_cases a (listMax1 (b :: t)) with ⟨h, _⟩ | ⟨h, _⟩
    · exact by rw [listMax1, h]; exact List.mem_cons_self _ _
    · exact by
        rw [listMax1, h]
        exact List.mem_cons_of_mem _ (listMax1_mem (by simp))

theorem listMax1_nonneg {l : List ℚ} (h : ∀ x ∈ l, 0 ≤ x) : 0 ≤ listMax1 l := by
  cases l with
  | nil => exact le_refl 0
  | cons a t => exact h _ (listMax1_mem (by simp))

/-- Two lists with the same members have the same maximum. -/
theorem listMax1_congr {l₁ l₂ : List ℚ} (h : ∀ x, x ∈ l₁ ↔ x ∈ l₂) :
    listMax1 l₁ = listMax1 l₂ := by
  cases l₁ with
  | nil =>
    cases l₂ with
    | nil => rfl
    | cons b t => exact absurd ((h b).mpr (List.mem_cons_self _ _)) (by simp)
  | cons a t =>
    cases l₂ with
    | nil => exact absurd ((h a).mp (List.mem_cons_self _ _)) (by simp)
    | cons b t' =>
      apply le_antisymm
      · exact le_listMax1_of_mem ((h _).mp (listMax1_mem (by simp)))
      · exact le_listMax1_of_mem ((h _).mpr (listMax1_mem (by simp)))

/-! ### The user-item matrix (`collaborative.py`, `build_user_item_matrix`)

The SQL `CASE` gives `purchase → 5`, `rating → rating`, `view → 1`, and no
branch for `wishlist` (SQL `NULL`, which the pivot drops); the pivot
aggregates multiple interactions of a (user, product) pair with `max` and
fills absent cells with `0`.  Rows and columns of the pivot are the distinct
user/product ids of the scored interactions, sorted ascending. -/

def derivedScore (i : Interaction) : Option ℚ :=
  match i.itype with
  | .purchase => some 5
  | .rate => some i.rating
  | .view => some 1
  | .wishlist => none

def pairScores (l : List Interaction) (u p : Nat) : List ℚ :=
  (l.filter (fun i => i.user_id == u && i.product_id == p)).filterMap derivedScore

def matrixCell (l : List Interaction) (u p : Nat) : ℚ :=
  listMax1 (pairScores l u p)

def scoredInteractions (l : List Interaction) : List Interaction :=
  l.filter (fun i => (derivedScore i).isSome)

theorem mem_pairScores {l : List Interaction} {u p : Nat} {s : ℚ} :
    s ∈ pairScores l u p ↔
      ∃ i ∈ l, i.user_id = u ∧ i.product_id = p ∧ derivedScore i = some s := by
  simp only [pairScores, List.mem_filterMap, List.mem_filter, Bool.and_eq_true,
    beq_iff_eq]
  constructor
  · rintro ⟨i, ⟨⟨hi, hu, hp⟩, hs⟩⟩
    exact ⟨i, hi, hu, hp, hs⟩
  · rintro ⟨i, hi, hu, hp, hs⟩
    exact ⟨i, ⟨⟨hi, hu, hp⟩, hs⟩⟩

/-- C4 preparation: the cell depends only on the set of interactions. -/
theorem matrixCell_congr {l₁ l₂ : List Interaction}
    (h : ∀ i, i ∈ l₁ ↔ i ∈ l₂) (u p : Nat) :
    matrixCell l₁ u p = matrixCell l₂ u p := by
  apply listMax1_congr
  intro x
  rw [mem_pairScores, mem_pairScores]
  constructor
  · rintro ⟨i, hi, rest⟩; exact ⟨i, (h i).mp hi, rest⟩
  · rintro ⟨i, hi, rest⟩; exact ⟨i, (h i).mpr hi, rest⟩

/-- C4: the user-item matrix is invariant under reordering and duplication of
the source interactions, and each cell is the maximal derived score
(purchase → 5, rating → the rating value, view → 1) over that (user, product)
pair's interactions, `0` where the pair has none. -/
theorem user_item_matrix_max_invariant (l₁ l₂ : List Interaction)
    (h : ∀ i, i ∈ l₁ ↔ i ∈ l₂) :
    (∀ u p, matrixCell l₁ u p = matrixCell l₂ u p) ∧
    (∀ u p,
      (∀ i ∈ l₁, i.user_id = u → i.product_id = p →
        ∀ s, derivedScore i = some s → s ≤ matrixCell l₁ u p) ∧
      (matrixCell l₁ u p = 0 ∨
        ∃ i ∈ l₁, i.user_id = u ∧ i.product_id = p ∧
          derivedScore i = some (matrixCell l₁ u p))) := by
  refine ⟨fun u p => matrixCell_congr h u p, fun u p => ⟨?_, ?_⟩⟩
  · intro i hi hu hp s hs
    exact le_listMax1_of_mem (mem_pairScores.mpr ⟨i, hi, hu, hp, hs⟩)
  · by_cases hne : pairScores l₁ u p = []
    · left
      simp [matrixCell, hne, listMax1]
    · right
      exact mem_pairScores.mp (listMax1_mem hne)

/-- Witness for C4 at a concrete pair of interaction lists: `l₂` is `l₁`
reordered with a duplicate, and the (1,1) cell is the max score 5. -/
theorem user_item_matrix_max_invariant_witness :
    (∀ i, i ∈ [(⟨1, 1, IType.view, 0, 0⟩ : Interaction), ⟨1, 1, IType.purchase, 0, 1⟩] ↔
      i ∈ [(⟨1, 1, IType.purchase, 0, 1⟩ : Interaction), ⟨1, 1, IType.view, 0, 0⟩,
            ⟨1, 1, IType.view, 0, 0⟩]) ∧
    matrixCell [(⟨1, 1, IType.view, 0, 0⟩ : Interaction), ⟨1, 1, IType.purchase, 0, 1⟩] 1 1 =
      matrixCell [(⟨1, 1, IType.purchase, 0, 1⟩ : Interaction), ⟨1, 1, IType.view, 0, 0⟩,
            ⟨1, 1, IType.view, 0, 0⟩] 1 1 := by
  have h : ∀ i, i ∈ [(⟨1, 1, IType.view, 0, 0⟩ : Interaction), ⟨1, 1, IType.purchase, 0, 1⟩] ↔
      i ∈ [(⟨1, 1, IType.purchase, 0, 1⟩ : Interaction), ⟨1, 1, IType.view, 0, 0⟩,
            ⟨1, 1, IType.view, 0, 0⟩] := by
    intro i
    simp only [List.mem_cons, List.not_mem_nil, or_false]
    tauto
  exact ⟨h, (user_item_matrix_max_invariant _ _ h).1 1 1⟩

/-! ### Stable sorts

`sortDescBy key` models Python's stable `sorted(..., reverse=True)` /
`list.sort(reverse=True)`: elements are processed left to right and each is
inserted after all already-placed elements whose key is `≥` its own, so ties
keep their original relative order.  `sortAscBy key` is the stable ascending
analogue; `(sortAscBy key l).reverse` models `numpy.argsort` style descending
order (`argsort()[::-1]`, and `pandas.Series.sort_values(ascending=False)`,
both of which reverse a stable ascending order and therefore present ties in
reversed original order). -/

def insertDescBy {α K : Type} [LinearOrder K] (key : α → K) (a : α) :
    List α → List α
  | [] => [a]
  | b :: t => if key b < key a then a :: b :: t else b :: insertDescBy key a t

def sortDescBy {α K : Type} [LinearOrder K] (key : α → K) (l : List α) : List α :=
  l.foldl (fun acc a => insertDescBy key a acc) []

def insertAscBy {α K : Type} [LinearOrder K] (key : α → K) (a : α) :
    List α → List α
  | [] => [a]
  | b :: t => if key a < key b then a :: b :: t else b :: insertAscBy key a t

def sortAscBy {α K : Type} [LinearOrder K] (key : α → K) (l : List α) : List α :=
  l.foldl (fun acc a => insertAscBy key a acc) []

section SortLemmas

variable {α K : Type} [LinearOrder K] (key : α → K)

theorem insertDescBy_perm (a : α) :
    ∀ l : List α, List.Perm (insertDescBy key a l) (a :: l)
  | [] => List.Perm.refl _
  | b :: t => by
    rw [insertDescBy]
    by_cases h : key b < key a
    · rw [if_pos h]
    · rw [if_neg h]
      exact ((insertDescBy_perm a t).cons b).trans (List.Perm.swap a b t)

theorem insertAscBy_perm (a : α) :
    ∀ l : List α, List.Perm (insertAscBy key a l) (a :: l)
  | [] => List.Perm.refl _
  | b :: t => by
    rw [insertAscBy]
    by_cases h : key a < key b
    · rw [if_pos h]
    · rw [if_neg h]
      exact ((insertAscBy_perm a t).cons b).trans (List.Perm.swap a b t)

theorem sortDescBy_perm (l : List α) : List.Perm (sortDescBy key l) l := by
  suffices h : ∀ (l acc : List α),
      List.Perm (l.foldl (fun acc a => insertDescBy key a acc) acc) (acc ++ l) by
    simpa using h l []
  intro l
  induction l with
  | nil => intro acc; simp
  | cons a t ih =>
    intro acc
    have h1 : (a :: t).foldl (fun acc a => insertDescBy key a acc) acc
        = t.foldl (fun acc a => insertDescBy key a acc) (insertDescBy key a acc) := rfl
    rw [h1]
    exact ((ih _).trans ((insertDescBy_perm key a acc).append_right t)).trans
      List.perm_middle.symm

theorem sortAscBy_perm (l : List α) : List.Perm (sortAscBy key l) l := by
  suffices h : ∀ (l acc : List α),
      List.Perm (l.foldl (fun acc a => insertAscBy key a acc) acc) (acc ++ l) by
    simpa using h l []
  intro l
  induction l with
  | nil => intro acc; simp
  | cons a t ih =>
    intro acc
    have h1 : (a :: t).foldl (fun acc a => insertAscBy key a acc) acc
        = t.foldl (fun acc a => insertAscBy key a acc) (insertAscBy key a acc) := rfl
    rw [h1]
    exact ((ih _).trans ((insertAscBy_perm key a acc).append_right t)).trans
      List.perm_middle.symm

theorem insertDescBy_pairwise (a : α) :
    ∀ {l : List α}, l.Pairwise (fun x y => key y ≤ key x) →
      (insertDescBy key a l).Pairwise (fun x y => key y ≤ key x)
  | [], _ => List.pairwise_singleton _ _
  | b :: t, h => by
    rw [insertDescBy]
    rcases List.pairwise_cons.mp h with ⟨hb, ht⟩
    by_cases hba : key b < key a
    · rw [if_pos hba]
      refine List.pairwise_cons.mpr ⟨?_, h⟩
      intro x hx
      rcases List.mem_cons.mp hx with rfl | hx
      · exact le_of_lt hba
      · exact le_trans (hb x hx) (le_of_lt hba)
    · rw [if_neg hba]
      refine List.pairwise_cons.mpr ⟨?_, insertDescBy_pairwise a ht⟩
      intro x hx
      have hx' : x ∈ a :: t := (insertDescBy_perm key a t).mem_iff.mp hx
      rcases List.mem_cons.mp hx' with rfl | hx'
      · exact le_of_not_lt hba
      · exact hb x hx'

theorem insertAscBy_pairwise (a : α) :
    ∀ {l : List α}, l.Pairwise (fun x y => key x ≤ key y) →
      (insertAscBy key a l).Pairwise (fun x y => key x ≤ key y)
  | [], _ => List.pairwise_singleton _ _
  | b :: t, h => by
    rw [insertAscBy]
    rcases List.pairwise_cons.mp h with ⟨hb, ht⟩
    by_cases hab : key a < key b
    · rw [if_pos hab]
      refine List.pairwise_cons.mpr ⟨?_, h⟩
      intro x hx
      rcases List.mem_cons.mp hx with rfl | hx
      · exact le_of_lt hab
      · exact le_trans (le_of_lt hab) (hb x hx)
    · rw [if_neg hab]
      refine List.pairwise_cons.mpr ⟨?_, insertAscBy_pairwise a ht⟩
      intro x hx
      have hx' : x ∈ a :: t := (insertAscBy_perm key a t).mem_iff.mp hx
      rcases List.mem_cons.mp hx' with rfl | hx'
      · exact le_of_not_lt hab
      · exact hb x hx'

theorem sortDescBy_pairwise (l : List α) :
    (sortDescBy key l).Pairwise (fun x y => key y ≤ key x) := by
  suffices h : ∀ (l acc : List α), acc.Pairwise (fun x y => key y ≤ key x) →
      (l.foldl (fun acc a => insertDescBy key a acc) acc).Pairwise
        (fun x y => key y ≤ key x) by
    exact h l [] (List.Pairwise.nil)
  intro l
  induction l with
  | nil => intro acc h; simpa using h
  | cons a t ih => intro acc h; exact ih _ (insertDescBy_pairwise key a h)

theorem sortAscBy_pairwise (l : List α) :
    (sortAscBy key l).Pairwise (fun x y => key x ≤ key y) := by
  suffices h : ∀ (l acc : List α), acc.Pairwise (fun x y => key x ≤ key y) →
      (l.foldl (fun acc a => insertAscBy key a acc) acc).Pairwise
        (fun x y => key x ≤ key y) by
    exact h l [] (List.Pairwise.nil)
  intro l
  induction l with
  | nil => intro acc h; simpa using h
  | cons a t ih => intro acc h; exact ih _ (insertAscBy_pairwise key a h)

end SortLemmas

/-! ### Hybrid combiner (`app/api/recommendations.py`, `_combine_recommendations`)

A source recommendation is keyed by product id; its score field stands for
the score key the combiner reads (`recommendation_score` on the
collaborative list, `similarity_score` on the content list), `none` for a
missing or `None` score (`rec.get(...) or 0` maps both to `0`).  Python
dicts keep the position of the first insertion of a key and the value of the
last; `hybridScores` reproduces the two insertion loops of the source. -/

structure SourceRec where
  pid : Nat
  score : Option ℚ
deriving DecidableEq, Repr

def dictInsert (d : List (Nat × SourceRec)) (k : Nat) (v : SourceRec) :
    List (Nat × SourceRec) :=
  if (d.find? (fun e => e.1 == k)).isSome then
    d.map (fun e => if e.1 == k then (k, v) else e)
  else d ++ [(k, v)]

def buildDict (l : List SourceRec) : List (Nat × SourceRec) :=
  l.foldl (fun d r => dictInsert d r.pid r) []

/-- One step of the second loop: add a content recommendation with weight
`0.4` into the running hybrid-score dict. -/
def addContent (d : List (Nat × ℚ × SourceRec)) (k : Nat) (rec : SourceRec) :
    List (Nat × ℚ × SourceRec) :=
  if (d.find? (fun e => e.1 == k)).isSome then
    d.map (fun e => if e.1 == k then (e.1, e.2.1 + rec.score.getD 0 * (4/10), e.2.2) else e)
  else d ++ [(k, rec.score.getD 0 * (4/10), rec)]

def hybridScores (collab_recs content_recs : List SourceRec) :
    List (Nat × ℚ × SourceRec) :=
  let collab_dict := buildDict collab_recs
  let content_dict := buildDict content_recs
  let base := collab_dict.map (fun e => (e.1, e.2.score.getD 0 * (6/10), e.2))
  content_dict.foldl (fun d e => addContent d e.1 e.2) base

def hybridSorted (collab_recs content_recs : List SourceRec) (limit : Nat) :
    List (Nat × ℚ × SourceRec) :=
  (sortDescBy (fun e => e.2.1) (hybridScores collab_recs content_recs)).take limit

/-- `_combine_recommendations(content_recs, collab_recs, limit)`: the final
projection returns the carried rec data of the truncated sorted list. -/
def combine_recommendations (content_recs collab_recs : List SourceRec)
    (limit : Nat) : List SourceRec :=
  (hybridSorted collab_recs content_recs limit).map (fun e => e.2.2)

/-- The score the combiner reads for product `p` from a source list with
distinct pids (`0` when `p` is absent or its score is `None`). -/
def sourceScore (l : List SourceRec) (p : Nat) : ℚ :=
  match l.find? (fun r => r.pid == p) with
  | some r => r.score.getD 0
  | none => 0

theorem buildDict_of_nodup {l : List SourceRec}
    (h : (l.map SourceRec.pid).Nodup) :
    buildDict l = l.map (fun r => (r.pid, r)) := by
  suffices hgen : ∀ (l : List SourceRec) (d : List (Nat × SourceRec)),
      (d.map Prod.fst ++ l.map SourceRec.pid).Nodup →
      l.foldl (fun d r => dictInsert d r.pid r) d = d ++ l.map (fun r => (r.pid, r)) by
    simpa using hgen l [] (by simpa using h)
  intro l
  induction l with
  | nil => intro d _; simp
  | cons r t ih =>
    intro d hd
    have hfresh : r.pid ∉ d.map Prod.fst := by
      intro hmem
      have hd' : (d.map Prod.fst ++ r.pid :: t.map SourceRec.pid).Nodup := by
        simpa using hd
      exact (List.nodup_append.mp hd').2.2 hmem (List.mem_cons_self _ _)
    have hnone : (d.find? (fun e => e.1 == r.pid)).isSome = false := by
      have : d.find? (fun e => e.1 == r.pid) = none := by
        rw [List.find?_eq_none]
        intro e he
        simp only [beq_iff_eq]
        intro hcontra
        exact hfresh (hcontra ▸ List.mem_map_of_mem Prod.fst he)
      rw [this]
      rfl
    have hstep : dictInsert d r.pid r = d ++ [(r.pid, r)] := by
      rw [dictInsert, hnone]
      simp
    have htail : ((d ++ [(r.pid, r)]).map Prod.fst ++ t.map SourceRec.pid).Nodup := by
      simp only [List.map_append, List.map_cons, List.map_nil] at hd ⊢
      simpa [List.append_assoc] using hd
    calc (r :: t).foldl (fun d r => dictInsert d r.pid r) d
        = t.foldl (fun d r => dictInsert d r.pid r) (dictInsert d r.pid r) := rfl
      _ = t.foldl (fun d r => dictInsert d r.pid r) (d ++ [(r.pid, r)]) := by rw [hstep]
      _ = (d ++ [(r.pid, r)]) ++ t.map (fun r => (r.pid, r)) := ih _ htail
      _ = d ++ (r :: t).map (fun r => (r.pid, r)) := by simp

theorem find?_map_pid (content : List SourceRec) (k : Nat) :
    (content.map (fun r => (r.pid, r))).find? (fun c => c.1 == k) =
      (content.find? (fun r => r.pid == k)).map (fun r => (r.pid, r)) := by
  induction content with
  | nil => rfl
  | cons a t ih =>
    simp only [List.map_cons, List.find?]
    cases h : a.pid == k <;> simp [h, ih]

theorem find?_nodup_mem {l : List SourceRec} {r : SourceRec}
    (h : (l.map SourceRec.pid).Nodup) (hr : r ∈ l) :
    l.find? (fun x => x.pid == r.pid) = some r := by
  induction l with
  | nil => cases hr
  | cons a t ih =>
    rcases List.mem_cons.mp hr with rfl | hr
    · simp [List.find?]
    · have hne : (a.pid == r.pid) = false := by
        simp only [beq_eq_false_iff_ne, ne_eq]
        intro hcontra
        have : r.pid ∈ t.map SourceRec.pid := List.mem_map_of_mem _ hr
        rw [← hcontra] at this
        exact (List.nodup_cons.mp h).1 this
      rw [List.find?]
      simp only [hne]
      exact ih (List.nodup_cons.mp h).2 hr

/-- Closed form of the second insertion loop of `_combine_recommendations`. -/
theorem foldl_addContent_closed (cs : List (Nat × SourceRec)) :
    ∀ (d : List (Nat × ℚ × SourceRec)), (cs.map Prod.fst).Nodup →
    cs.foldl (fun d e => addContent d e.1 e.2) d =
      d.map (fun e =>
        match cs.find? (fun c => c.1 == e.1) with
        | some c => (e.1, e.2.1 + c.2.score.getD 0 * (4/10), e.2.2)
        | none => e)
      ++ (cs.filter (fun c => decide (c.1 ∉ d.map Prod.fst))).map
           (fun c => (c.1, c.2.score.getD 0 * (4/10), c.2)) := by
  induction cs with
  | nil => intro d _; simp
  | cons c t ih =>
    intro d hnd
    have hckey : c.1 ∉ t.map Prod.fst := (List.nodup_cons.mp (by simpa using hnd)).1
    have hndt : (t.map Prod.fst).Nodup := (List.nodup_cons.mp (by simpa using hnd)).2
    have hstep : (c :: t).foldl (fun d e => addContent d e.1 e.2) d =
        t.foldl (fun d e => addContent d e.1 e.2) (addContent d c.1 c.2) := rfl
    rw [hstep]
    have htfind : t.find? (fun x => x.1 == c.1) = none := by
      rw [List.find?_eq_none]
      intro x hx
      simp only [beq_iff_eq]
      intro hxe
      exact hckey (hxe ▸ List.mem_map_of_mem Prod.fst hx)
    by_cases hmem : (d.find? (fun e => e.1 == c.1)).isSome
    · -- the key is already present: the entry is updated in place
      have hup : addContent d c.1 c.2 =
          d.map (fun e => if (e.1 == c.1) = true then
            (e.1, e.2.1 + c.2.score.getD 0 * (4/10), e.2.2) else e) := by
        rw [addContent, if_pos hmem]
      have hkcd : c.1 ∈ d.map Prod.fst := by
        rcases Option.isSome_iff_exists.mp hmem with ⟨e, he⟩
        have h1 := List.find?_some he
        have h2 := List.mem_of_find?_eq_some he
        simp only [beq_iff_eq] at h1
        exact h1 ▸ List.mem_map_of_mem Prod.fst h2
      rw [ih _ hndt, hup, List.map_map]
      have hkeys : (d.map (fun e => if (e.1 == c.1) = true then
            (e.1, e.2.1 + c.2.score.getD 0 * (4/10), e.2.2) else e)).map Prod.fst =
          d.map Prod.fst := by
        rw [List.map_map]
        apply List.map_congr_left
        intro e _
        by_cases he : e.1 = c.1 <;> simp [he]
      congr 1
      · apply List.map_congr_left
        intro e _
        simp only [Function.comp]
        by_cases he : e.1 = c.1
        · have h1 : (e.1 == c.1) = true := by simpa using he
          have h2 : t.find? (fun x => x.1 == e.1) = none := he ▸ htfind
          have h3 : (c :: t).find? (fun x => x.1 == e.1) = some c :=
            List.find?_cons_of_pos _ (by simpa using he.symm)
          rw [if_pos h1, h3]
          simp [h2]
        · have h1 : (e.1 == c.1) = false := by simpa using he
          have h3 : (c :: t).find? (fun x => x.1 == e.1) = t.find? (fun x => x.1 == e.1) :=
            List.find?_cons_of_neg _ (by simpa using Ne.symm he)
          rw [h3]
          simp [h1]
      · rw [hkeys, List.filter_cons]
        simp [hkcd]
    · -- fresh key: the entry is appended
      have hup : addContent d c.1 c.2 = d ++ [(c.1, c.2.score.getD 0 * (4/10), c.2)] := by
        rw [addContent, if_neg (by simpa using hmem)]
      have hkcd : c.1 ∉ d.map Prod.fst := by
        intro hk
        rcases List.mem_map.mp hk with ⟨e, he, hke⟩
        have hne2 : d.find? (fun x => x.1 == c.1) ≠ none := by
          intro hcontra
          rw [List.find?_eq_none] at hcontra
          exact hcontra e he (by simpa using hke)
        exact hmem (Option.isSome_iff_ne_none.mpr hne2)
      rw [ih _ hndt, hup]
      rw [List.map_append]
      have hmapd : d.map (fun e =>
          match t.find? (fun x => x.1 == e.1) with
          | some x => (e.1, e.2.1 + x.2.score.getD 0 * (4/10), e.2.2)
          | none => e) =
          d.map (fun e =>
          match (c :: t).find? (fun x => x.1 == e.1) with
          | some x => (e.1, e.2.1 + x.2.score.getD 0 * (4/10), e.2.2)
          | none => e) := by
        apply List.map_congr_left
        intro e he
        have hne : e.1 ≠ c.1 := by
          intro hcontra
          exact hkcd (hcontra ▸ List.mem_map_of_mem Prod.fst he)
        have h3 : (c :: t).find? (fun x => x.1 == e.1) = t.find? (fun x => x.1 == e.1) :=
          List.find?_cons_of_neg _ (by simpa using Ne.symm hne)
        rw [h3]
      have hsingle : ([(c.1, c.2.score.getD 0 * (4/10), c.2)].map (fun e =>
          match t.find? (fun x => x.1 == e.1) with
          | some x => (e.1, e.2.1 + x.2.score.getD 0 * (4/10), e.2.2)
          | none => e)) = [(c.1, c.2.score.getD 0 * (4/10), c.2)] := by
        simp only [List.map_cons, List.map_nil]
        rw [htfind]
      have hfilterc : ((c :: t).filter (fun x => decide (x.1 ∉ d.map Prod.fst))) =
          c :: t.filter (fun x => decide (x.1 ∉ d.map Prod.fst)) := by
        rw [List.filter_cons]
        simp [hkcd]
      have hfiltert : (t.filter (fun x =>
            decide (x.1 ∉ (d ++ [(c.1, c.2.score.getD 0 * (4/10), c.2)]).map Prod.fst))) =
          t.filter (fun x => decide (x.1 ∉ d.map Prod.fst)) := by
        apply List.filter_congr
        intro x hx
        have hne : x.1 ≠ c.1 := by
          intro hcontra
          exact hckey (hcontra ▸ List.mem_map_of_mem Prod.fst hx)
        simp [hne]
      rw [hmapd, hsingle, hfilterc, hfiltert]
      simp

theorem match_update_fst (cs : List (Nat × SourceRec)) (e : Nat × ℚ × SourceRec) :
    ((match cs.find? (fun c => c.1 == e.1) with
      | some c => (e.1, e.2.1 + c.2.score.getD 0 * (4/10), e.2.2)
      | none => e : Nat × ℚ × SourceRec)).1 = e.1 := by
  rcases h : cs.find? (fun c => c.1 == e.1) with _ | c <;> rw [h]

/-- C2: the hybrid combiner assigns
`hybrid_score = 0.6 × collaborative_score + 0.4 × content_score` with a `0`
default for a product id absent from (or unscored in) either list, a product
present in only one source still participates with just that source's
weighted contribution, and the output is sorted by hybrid score descending
and truncated to `limit`. -/
theorem hybrid_combiner_weights (collab_recs content_recs : List SourceRec)
    (limit : Nat)
    (hc : (collab_recs.map SourceRec.pid).Nodup)
    (hn : (content_recs.map SourceRec.pid).Nodup) :
    (∀ e ∈ hybridScores collab_recs content_recs,
      e.2.1 = (6/10) * sourceScore collab_recs e.1 +
        (4/10) * sourceScore content_recs e.1) ∧
    (∀ p, p ∈ (hybridScores collab_recs content_recs).map Prod.fst ↔
      (p ∈ collab_recs.map SourceRec.pid ∨ p ∈ content_recs.map SourceRec.pid)) ∧
    ((hybridSorted collab_recs content_recs limit).map (fun e => e.2.1)).Pairwise
      (fun a b => b ≤ a) ∧
    (hybridSorted collab_recs content_recs limit).length ≤ limit := by
  have hcd : buildDict collab_recs = collab_recs.map (fun r => (r.pid, r)) :=
    buildDict_of_nodup hc
  have hnd2 : buildDict content_recs = content_recs.map (fun r => (r.pid, r)) :=
    buildDict_of_nodup hn
  have hcsnodup : ((content_recs.map (fun r => (r.pid, r))).map Prod.fst).Nodup := by
    rw [List.map_map]
    simpa using hn
  have hunfold : hybridScores collab_recs content_recs =
      (content_recs.map (fun r => (r.pid, r))).foldl (fun d e => addContent d e.1 e.2)
        (collab_recs.map (fun r => (r.pid, r.score.getD 0 * (6/10), r))) := by
    simp only [hybridScores]
    rw [hcd, hnd2, List.map_map]
    rfl
  have hAkeys : ((collab_recs.map
      (fun r => (r.pid, r.score.getD 0 * (6/10), r))).map Prod.fst) =
      collab_recs.map SourceRec.pid := by
    rw [List.map_map]
    rfl
  have hcf := foldl_addContent_closed (content_recs.map (fun r => (r.pid, r)))
    (collab_recs.map (fun r => (r.pid, r.score.getD 0 * (6/10), r))) hcsnodup
  rw [hcf] at hunfold
  have hfst := fun e => match_update_fst (content_recs.map (fun r => (r.pid, r))) e
  refine ⟨?_, ?_, ?_, ?_⟩
  · -- the weight formula
    intro e he
    rw [hunfold] at he
    rcases List.mem_append.mp he with hA | hB
    · rcases List.mem_map.mp hA with ⟨e0, he0, rfl⟩
      rcases List.mem_map.mp he0 with ⟨r, hr, rfl⟩
      have hss : sourceScore collab_recs r.pid = r.score.getD 0 := by
        rw [sourceScore, find?_nodup_mem hc hr]
      rcases hfind : content_recs.find? (fun x => x.pid == r.pid) with _ | cr
      · have h2 : (content_recs.map (fun r => (r.pid, r))).find?
            (fun c => c.1 == r.pid) = none := by
          rw [find?_map_pid, hfind]
          rfl
        have hsn : sourceScore content_recs r.pid = 0 := by
          rw [sourceScore, hfind]
        simp only [h2, hss, hsn]
        ring
      · have h2 : (content_recs.map (fun r => (r.pid, r))).find?
            (fun c => c.1 == r.pid) = some (cr.pid, cr) := by
          rw [find?_map_pid, hfind]
          rfl
        have hsn : sourceScore content_recs r.pid = cr.score.getD 0 := by
          rw [sourceScore, hfind]
        simp only [h2, hss, hsn]
        ring
    · rcases List.mem_map.mp hB with ⟨c0, hc0, rfl⟩
      rcases List.mem_filter.mp hc0 with ⟨hc1, hc2⟩
      rcases List.mem_map.mp hc1 with ⟨x, hx, rfl⟩
      rw [hAkeys] at hc2
      have hnotc : x.pid ∉ collab_recs.map SourceRec.pid := by simpa using hc2
      have hs0 : sourceScore collab_recs x.pid = 0 := by
        rw [sourceScore]
        have : collab_recs.find? (fun r => r.pid == x.pid) = none := by
          rw [List.find?_eq_none]
          intro r hr
          simp only [beq_iff_eq]
          intro hcontra
          exact hnotc (hcontra ▸ List.mem_map_of_mem SourceRec.pid hr)
        rw [this]
      have hsx : sourceScore content_recs x.pid = x.score.getD 0 := by
        rw [sourceScore, find?_nodup_mem hn hx]
      simp only [hs0, hsx]
      ring
  · -- participation of every product id of either source
    intro p
    rw [hunfold]
    constructor
    · intro hp
      rcases List.mem_map.mp hp with ⟨e, he, rfl⟩
      rcases List.mem_append.mp he with hA | hB
      · left
        rcases List.mem_map.mp hA with ⟨e0, he0, rfl⟩
        rcases List.mem_map.mp he0 with ⟨r, hr, rfl⟩
        rw [hfst]
        exact List.mem_map_of_mem SourceRec.pid hr
      · right
        rcases List.mem_map.mp hB with ⟨c0, hc0, rfl⟩
        rcases List.mem_filter.mp hc0 with ⟨hc1, _⟩
        rcases List.mem_map.mp hc1 with ⟨x, hx, rfl⟩
        exact List.mem_map_of_mem SourceRec.pid hx
    · intro hp
      by_cases hpc : p ∈ collab_recs.map SourceRec.pid
      · rcases List.mem_map.mp hpc with ⟨r, hr, rfl⟩
        refine List.mem_map.mpr ⟨_, List.mem_append_left _
          (List.mem_map_of_mem _ (List.mem_map_of_mem
            (fun r => (r.pid, r.score.getD 0 * (6/10), r)) hr)), ?_⟩
        rw [hfst]
      · rcases hp.resolve_left hpc with hp
        rcases List.mem_map.mp hp with ⟨x, hx, rfl⟩
        refine List.mem_map.mpr ⟨(x.pid, x.score.getD 0 * (4/10), x),
          List.mem_append_right _ (List.mem_map.mpr
            ⟨(x.pid, x), List.mem_filter.mpr ⟨List.mem_map_of_mem _ hx, ?_⟩, rfl⟩), rfl⟩
        rw [hAkeys]
        simpa using hpc
  · -- descending order of the truncated output
    rw [hybridSorted, List.pairwise_map]
    exact List.Pairwise.sublist (List.take_sublist _ _) (sortDescBy_pairwise _ _)
  · rw [hybridSorted]
    exact (List.length_take _ _).le.trans (min_le_left _ _)

/-- Witness for C2: a concrete pair of ranked lists with distinct ids,
sharing product 2 and each owning a private product. -/
theorem hybrid_combiner_weights_witness :
    ((([⟨1, some 2⟩, ⟨2, none⟩] : List SourceRec).map SourceRec.pid).Nodup) ∧
    ((([⟨2, some 1⟩, ⟨3, some 3⟩] : List SourceRec).map SourceRec.pid).Nodup) ∧
    (∀ e ∈ hybridScores [⟨1, some 2⟩, ⟨2, none⟩] [⟨2, some 1⟩, ⟨3, some 3⟩],
      e.2.1 = (6/10) * sourceScore [⟨1, some 2⟩, ⟨2, none⟩] e.1 +
        (4/10) * sourceScore [⟨2, some 1⟩, ⟨3, some 3⟩] e.1) :=
  ⟨by decide, by decide,
    (hybrid_combiner_weights [⟨1, some 2⟩, ⟨2, none⟩] [⟨2, some 1⟩, ⟨3, some 3⟩] 2
      (by decide) (by decide)).1⟩

/-! ### Cosine similarity (`sklearn.metrics.pairwise.cosine_similarity`)

`cosine_similarity` normalizes each row by its Euclidean norm, leaving
all-zero rows untouched, and takes dot products; so two rows get
`dot v w / (‖v‖ ‖w‖)` and any pairing with a zero row gets `0`.  Row entries
are rational; the value lives in `ℝ` because of the square roots. -/

def dotQ : List ℚ → List ℚ → ℚ
  | a :: v, b :: w => a * b + dotQ v w
  | _, _ => 0

theorem dotQ_nil_right : ∀ v : List ℚ, dotQ v [] = 0 := by
  intro v
  cases v <;> rfl

theorem dotQ_comm : ∀ v w : List ℚ, dotQ v w = dotQ w v
  | [], [] => rfl
  | [], _ :: _ => rfl
  | _ :: _, [] => rfl
  | a :: v, b :: w => by
    rw [dotQ, dotQ, dotQ_comm v w, mul_comm]

theorem dotQ_self_nonneg : ∀ v : List ℚ, 0 ≤ dotQ v v
  | [] => le_refl 0
  | a :: v => by
    rw [dotQ]
    exact add_nonneg (mul_self_nonneg a) (dotQ_self_nonneg v)

theorem dotQ_nonneg : ∀ {v w : List ℚ}, (∀ x ∈ v, 0 ≤ x) → (∀ x ∈ w, 0 ≤ x) →
    0 ≤ dotQ v w
  | [], [], _, _ => le_refl 0
  | [], _ :: _, _, _ => le_refl 0
  | _ :: _, [], _, _ => le_refl 0
  | a :: v, b :: w, hv, hw => by
    rw [dotQ]
    exact add_nonneg
      (mul_nonneg (hv a (List.mem_cons_self _ _)) (hw b (List.mem_cons_self _ _)))
      (dotQ_nonneg (fun x hx => hv x (List.mem_cons_of_mem _ hx))
        (fun x hx => hw x (List.mem_cons_of_mem _ hx)))

theorem mul_self_le_dotQ_self : ∀ {v : List ℚ} {x : ℚ}, x ∈ v → x * x ≤ dotQ v v
  | a :: v, x, h => by
    rw [dotQ]
    rcases List.mem_cons.mp h with rfl | h
    · exact le_add_of_nonneg_right (dotQ_self_nonneg v)
    · exact (mul_self_le_dotQ_self h).trans (le_add_of_nonneg_left (mul_self_nonneg a))

theorem dotQ_eq_sum (v : List ℚ) : ∀ w : List ℚ,
    dotQ v w = ∑ i ∈ Finset.range (min v.length w.length),
      v.getD i 0 * w.getD i 0 := by
  induction v with
  | nil => intro w; simp [dotQ]
  | cons a v ih =>
    intro w
    cases w with
    | nil => simp [dotQ_nil_right]
    | cons b w =>
      rw [dotQ, ih w]
      have hmin : min (a :: v).length (b :: w).length = min v.length w.length + 1 := by
        simp [List.length_cons, Nat.succ_min_succ]
      rw [hmin, Finset.sum_range_succ']
      simp only [List.getD_cons_succ, List.getD_cons_zero]
      exact add_comm _ _

/-- Discrete Cauchy-Schwarz for `dotQ`. -/
theorem dotQ_sq_le (v w : List ℚ) : dotQ v w ^ 2 ≤ dotQ v v * dotQ w w := by
  have hvv : dotQ v v = ∑ i ∈ Finset.range v.length, v.getD i 0 ^ 2 := by
    rw [dotQ_eq_sum v v, min_self]
    exact Finset.sum_congr rfl fun i _ => (pow_two (v.getD i 0)).symm ▸ rfl
  have hww : dotQ w w = ∑ i ∈ Finset.range w.length, w.getD i 0 ^ 2 := by
    rw [dotQ_eq_sum w w, min_self]
    exact Finset.sum_congr rfl fun i _ => (pow_two (w.getD i 0)).symm ▸ rfl
  have hCS := Finset.sum_mul_sq_le_sq_mul_sq (Finset.range (min v.length w.length))
    (fun i => v.getD i 0) (fun i => w.getD i 0)
  have hv2 : ∑ i ∈ Finset.range (min v.length w.length), v.getD i 0 ^ 2 ≤ dotQ v v := by
    rw [hvv]
    refine Finset.sum_le_sum_of_subset_of_nonneg
      (Finset.range_subset.mpr (min_le_left _ _)) ?_
    intro i _ _
    exact sq_nonneg _
  have hw2 : ∑ i ∈ Finset.range (min v.length w.length), w.getD i 0 ^ 2 ≤ dotQ w w := by
    rw [hww]
    refine Finset.sum_le_sum_of_subset_of_nonneg
      (Finset.range_subset.mpr (min_le_right _ _)) ?_
    intro i _ _
    exact sq_nonneg _
  have h0 : (0:ℚ) ≤ ∑ i ∈ Finset.range (min v.length w.length), w.getD i 0 ^ 2 :=
    Finset.sum_nonneg fun i _ => sq_nonneg _
  calc dotQ v w ^ 2
      = (∑ i ∈ Finset.range (min v.length w.length), v.getD i 0 * w.getD i 0) ^ 2 := by
        rw [dotQ_eq_sum]
    _ ≤ (∑ i ∈ Finset.range (min v.length w.length), v.getD i 0 ^ 2) *
          ∑ i ∈ Finset.range (min v.length w.length), w.getD i 0 ^ 2 := hCS
    _ ≤ dotQ v v * dotQ w w := mul_le_mul hv2 hw2 h0 (dotQ_self_nonneg v)

noncomputable def cosineSim (v w : List ℚ) : ℝ :=
  if dotQ v v = 0 ∨ dotQ w w = 0 then 0
  else (dotQ v w : ℝ) / (Real.sqrt (dotQ v v) * Real.sqrt (dotQ w w))

theorem cosineSim_comm (v w : List ℚ) : cosineSim v w = cosineSim w v := by
  rw [cosineSim, cosineSim, dotQ_comm v w]
  by_cases h : dotQ v v = 0 ∨ dotQ w w = 0
  · rw [if_pos h, if_pos (Or.symm h)]
  · rw [if_neg h, if_neg (fun hc => h (Or.symm hc)), mul_comm]

theorem cosineSim_self {v : List ℚ} (h : dotQ v v ≠ 0) : cosineSim v v = 1 := by
  rw [cosineSim, if_neg (by simpa using h)]
  have hpos : (0:ℝ) < (dotQ v v : ℝ) := by
    have h2 := lt_of_le_of_ne (dotQ_self_nonneg v) (Ne.symm h)
    exact_mod_cast h2
  rw [Real.mul_self_sqrt hpos.le]
  exact div_self (ne_of_gt hpos)

theorem cosineSim_nonneg {v w : List ℚ} (hv : ∀ x ∈ v, 0 ≤ x) (hw : ∀ x ∈ w, 0 ≤ x) :
    0 ≤ cosineSim v w := by
  rw [cosineSim]
  by_cases h : dotQ v v = 0 ∨ dotQ w w = 0
  · rw [if_pos h]
  · rw [if_neg h]
    refine div_nonneg ?_ (mul_nonneg (Real.sqrt_nonneg _) (Real.sqrt_nonneg _))
    exact_mod_cast dotQ_nonneg hv hw

theorem cosineSim_le_one {v w : List ℚ} (hv : ∀ x ∈ v, 0 ≤ x) (hw : ∀ x ∈ w, 0 ≤ x) :
    cosineSim v w ≤ 1 := by
  rw [cosineSim]
  by_cases h : dotQ v v = 0 ∨ dotQ w w = 0
  · rw [if_pos h]
    exact zero_le_one
  · rw [if_neg h]
    push_neg at h
    have hA : (0:ℚ) < dotQ v v := lt_of_le_of_ne (dotQ_self_nonneg v) (Ne.symm h.1)
    have hB : (0:ℚ) < dotQ w w := lt_of_le_of_ne (dotQ_self_nonneg w) (Ne.symm h.2)
    have hAr : (0:ℝ) < (dotQ v v : ℝ) := by exact_mod_cast hA
    have hBr : (0:ℝ) < (dotQ w w : ℝ) := by exact_mod_cast hB
    have hden : (0:ℝ) < Real.sqrt (dotQ v v) * Real.sqrt (dotQ w w) :=
      mul_pos (Real.sqrt_pos.mpr hAr) (Real.sqrt_pos.mpr hBr)
    rw [div_le_one hden]
    have hnum : (0:ℝ) ≤ (dotQ v w : ℝ) := by exact_mod_cast dotQ_nonneg hv hw
    have hsq : ((dotQ v w : ℝ)) ^ 2 ≤ (dotQ v v : ℝ) * (dotQ w w : ℝ) := by
      exact_mod_cast dotQ_sq_le v w
    have h1 : (dotQ v w : ℝ) ≤ Real.sqrt ((dotQ v v : ℝ) * (dotQ w w : ℝ)) :=
      Real.le_sqrt_of_sq_le ((by exact hsq))
    calc (dotQ v w : ℝ) ≤ Real.sqrt ((dotQ v v : ℝ) * (dotQ w w : ℝ)) := h1
      _ = Real.sqrt (dotQ v v) * Real.sqrt (dotQ w w) := Real.sqrt_mul hAr.le _

/-! ### User similarity (`collaborative.py`, `calculate_user_similarity`)

The pivot's row labels are the distinct ids of interactions with a non-NULL
derived score, sorted ascending; `cosine_similarity(matrix)` compares rows. -/

def matrixUsers (l : List Interaction) : List Nat :=
  sortAscBy (fun u => u) ((scoredInteractions l).map Interaction.user_id).dedup

def matrixProducts (l : List Interaction) : List Nat :=
  sortAscBy (fun p => p) ((scoredInteractions l).map Interaction.product_id).dedup

def rowOf (l : List Interaction) (u : Nat) : List ℚ :=
  (matrixProducts l).map (fun p => matrixCell l u p)

noncomputable def calculate_user_similarity (l : List Interaction) (u v : Nat) : ℝ :=
  cosineSim (rowOf l u) (rowOf l v)

theorem mem_matrixUsers {l : List Interaction} {u : Nat} :
    u ∈ matrixUsers l ↔ ∃ i ∈ l, i.user_id = u ∧ ∃ s, derivedScore i = some s := by
  rw [matrixUsers, (sortAscBy_perm _ _).mem_iff, List.mem_dedup, List.mem_map]
  simp only [scoredInteractions, List.mem_filter, Option.isSome_iff_exists]
  constructor
  · rintro ⟨i, ⟨hi, hs⟩, rfl⟩
    exact ⟨i, hi, rfl, hs⟩
  · rintro ⟨i, hi, rfl, hs⟩
    exact ⟨i, ⟨hi, hs⟩, rfl⟩

theorem mem_matrixProducts {l : List Interaction} {p : Nat} :
    p ∈ matrixProducts l ↔ ∃ i ∈ l, i.product_id = p ∧ ∃ s, derivedScore i = some s := by
  rw [matrixProducts, (sortAscBy_perm _ _).mem_iff, List.mem_dedup, List.mem_map]
  simp only [scoredInteractions, List.mem_filter, Option.isSome_iff_exists]
  constructor
  · rintro ⟨i, ⟨hi, hs⟩, rfl⟩
    exact ⟨i, hi, rfl, hs⟩
  · rintro ⟨i, hi, rfl, hs⟩
    exact ⟨i, ⟨hi, hs⟩, rfl⟩

/-- With ratings validated to lie in `[1,5]`, every derived score is `≥ 1`. -/
theorem derivedScore_ge_one {l : List Interaction} {i : Interaction} {s : ℚ}
    (hval : ∀ j ∈ l, j.itype = IType.rate → 1 ≤ j.rating)
    (hi : i ∈ l) (hs : derivedScore i = some s) : 1 ≤ s := by
  rcases i with ⟨iu, ip, it, ir, its⟩
  cases it with
  | view =>
    rw [derivedScore] at hs
    rw [(Option.some_inj.mp hs).symm]
  | purchase =>
    rw [derivedScore] at hs
    rw [(Option.some_inj.mp hs).symm]
    norm_num
  | rate =>
    rw [derivedScore] at hs
    rw [(Option.some_inj.mp hs).symm]
    exact hval _ hi rfl
  | wishlist =>
    rw [derivedScore] at hs
    cases hs

theorem matrixCell_nonneg {l : List Interaction}
    (hval : ∀ j ∈ l, j.itype = IType.rate → 1 ≤ j.rating) (u p : Nat) :
    0 ≤ matrixCell l u p := by
  apply listMax1_nonneg
  intro x hx
  rcases mem_pairScores.mp hx with ⟨i, hi, _, _, hs⟩
  exact le_trans zero_le_one (derivedScore_ge_one hval hi hs)

theorem rowOf_nonneg {l : List Interaction}
    (hval : ∀ j ∈ l, j.itype = IType.rate → 1 ≤ j.rating) (u : Nat) :
    ∀ x ∈ rowOf l u, 0 ≤ x := by
  intro x hx
  rcases List.mem_map.mp hx with ⟨p, _, rfl⟩
  exact matrixCell_nonneg hval u p

theorem dotQ_rowOf_self_ne_zero {l : List Interaction} {u : Nat}
    (hval : ∀ j ∈ l, j.itype = IType.rate → 1 ≤ j.rating)
    (hu : u ∈ matrixUsers l) : dotQ (rowOf l u) (rowOf l u) ≠ 0 := by
  rcases mem_matrixUsers.mp hu with ⟨i, hi, hiu, s, hs⟩
  have hp : i.product_id ∈ matrixProducts l := mem_matrixProducts.mpr ⟨i, hi, rfl, s, hs⟩
  have hcell : 1 ≤ matrixCell l u i.product_id := by
    refine le_trans (derivedScore_ge_one hval hi hs) ?_
    exact le_listMax1_of_mem (mem_pairScores.mpr ⟨i, hi, hiu, rfl, hs⟩)
  have hmem : matrixCell l u i.product_id ∈ rowOf l u :=
    List.mem_map.mpr ⟨i.product_id, hp, rfl⟩
  have hsq : (1:ℚ) ≤ matrixCell l u i.product_id * matrixCell l u i.product_id := by
    nlinarith
  have := le_trans hsq (mul_self_le_dotQ_self hmem)
  intro hc
  rw [hc] at this
  norm_num at this

/-- C5: the user-user similarity matrix is symmetric, its diagonal is exactly
1 for every user present in the matrix, and (since matrix cells are
nonnegative) every entry lies in `[0,1]`.  Ratings are assumed pre-validated
(`rating ∈ [1,5]`), which is what makes each present row nonzero. -/
theorem user_similarity_matrix_properties (l : List Interaction)
    (hval : ∀ j ∈ l, j.itype = IType.rate → 1 ≤ j.rating) :
    (∀ u v, calculate_user_similarity l u v = calculate_user_similarity l v u) ∧
    (∀ u ∈ matrixUsers l, calculate_user_similarity l u u = 1) ∧
    (∀ u v, 0 ≤ calculate_user_similarity l u v ∧
      calculate_user_similarity l u v ≤ 1) := by
  refine ⟨?_, ?_, ?_⟩
  · intro u v
    exact cosineSim_comm _ _
  · intro u hu
    exact cosineSim_self (dotQ_rowOf_self_ne_zero hval hu)
  · intro u v
    exact ⟨cosineSim_nonneg (rowOf_nonneg hval u) (rowOf_nonneg hval v),
      cosineSim_le_one (rowOf_nonneg hval u) (rowOf_nonneg hval v)⟩

/-- Witness for C5: two users, one rating of 3 and one view; the rating
validity hypothesis and matrix membership are checked by evaluation. -/
theorem user_similarity_matrix_properties_witness :
    (∀ j ∈ [(⟨1, 1, IType.rate, 3, 0⟩ : Interaction), ⟨2, 1, IType.view, 0, 1⟩],
      j.itype = IType.rate → 1 ≤ j.rating) ∧
    1 ∈ matrixUsers [(⟨1, 1, IType.rate, 3, 0⟩ : Interaction), ⟨2, 1, IType.view, 0, 1⟩] ∧
    calculate_user_similarity
      [(⟨1, 1, IType.rate, 3, 0⟩ : Interaction), ⟨2, 1, IType.view, 0, 1⟩] 1 1 = 1 :=
  ⟨by decide, by decide,
    (user_similarity_matrix_properties _ (by decide)).2.1 1 (by decide)⟩

/-! ### Item similarity (`content_based.py`, `calculate_similarity`)

For a reference row index, the code blends TF-IDF cosine similarity (weight
0.6), binary category equality (0.3) and normalized price closeness (0.1)
against every product of the catalog.  The TF-IDF matrix is an input here
(the vectorizer itself is an external library); its rows are per-product
weighted term vectors. -/

def maxCatalogPrice (ps : List Product) : ℚ := listMax1 (ps.map Product.price)

def category_similarity (ps : List Product) (i j : Nat) : ℚ :=
  if (ps.getD j default).category = (ps.getD i default).category then 1 else 0

/-- `1 - |price_j - price_i| / max(price)`; the division is written exactly
as in the source, with no guard on a zero maximum price (`ℚ` division is
total with `x / 0 = 0`, the float code would divide by zero there). -/
def price_similarity (ps : List Product) (i j : Nat) : ℚ :=
  1 - |(ps.getD j default).price - (ps.getD i default).price| / maxCatalogPrice ps

noncomputable def calculate_similarity (ps : List Product) (tfidf : List (List ℚ))
    (product_idx : Nat) : List ℝ :=
  (List.range ps.length).map (fun j =>
    0.6 * cosineSim (tfidf.getD product_idx []) (tfidf.getD j []) +
    0.3 * (category_similarity ps product_idx j : ℝ) +
    0.1 * (price_similarity ps product_idx j : ℝ))

/-- The blend as the specification words it: `0.6 × text + 0.3 × category +
0.1 × price`, category similarity binary on category equality, price
similarity `1 − |price_i − price_ref| / max_price`. -/
noncomputable def blendedScoreSpec (ps : List Product) (tfidf : List (List ℚ))
    (i j : Nat) : ℝ :=
  0.6 * cosineSim (tfidf.getD i []) (tfidf.getD j []) +
  0.3 * (if (ps.getD j default).category = (ps.getD i default).category
         then (1:ℝ) else 0) +
  0.1 * ((1:ℝ) - |((ps.getD j default).price : ℝ) - ((ps.getD i default).price : ℝ)| /
    (maxCatalogPrice ps : ℝ))

/-- C3: the blended item similarity equals
`0.6 × text + 0.3 × category + 0.1 × price` with the category component
exactly 1 on identical categories and exactly 0 otherwise. -/
theorem blended_similarity_weights (ps : List Product) (tfidf : List (List ℚ))
    (i j : Nat) (hj : j < ps.length) :
    (calculate_similarity ps tfidf i).getD j 0 = blendedScoreSpec ps tfidf i j ∧
    (category_similarity ps i j = 1 ↔
      (ps.getD j default).category = (ps.getD i default).category) ∧
    (category_similarity ps i j = 0 ↔
      (ps.getD j default).category ≠ (ps.getD i default).category) := by
  refine ⟨?_, ?_, ?_⟩
  · have h1 : (calculate_similarity ps tfidf i).getD j 0 =
        0.6 * cosineSim (tfidf.getD i []) (tfidf.getD j []) +
        0.3 * (category_similarity ps i j : ℝ) +
        0.1 * (price_similarity ps i j : ℝ) := by
      rw [calculate_similarity, List.getD_eq_getElem?_getD, List.getElem?_map,
        List.getElem?_range hj]
      rfl
    rw [h1, blendedScoreSpec]
    congr 1
    · congr 1
      rw [category_similarity]
      by_cases hc : (ps.getD j default).category = (ps.getD i default).category
      · rw [if_pos hc, if_pos hc]
        norm_num
      · rw [if_neg hc, if_neg hc]
        norm_num
    · rw [price_similarity]
      push_cast
      ring
  · rw [category_similarity]
    by_cases hc : (ps.getD j default).category = (ps.getD i default).category
    · simp [hc]
    · simp [hc]
  · rw [category_similarity]
    by_cases hc : (ps.getD j default).category = (ps.getD i default).category
    · simp [hc]
    · simp [hc]

/-- Witness for C3: two products, same category, prices 4 and 2, trivial
one-term TF-IDF rows. -/
theorem blended_similarity_weights_witness :
    (1 < ([{ id := 1, title := "a", category := "A", price := 4, description := "",
             rating := none, review_count := 0 },
           { id := 2, title := "b", category := "A", price := 2, description := "",
             rating := none, review_count := 0 }] : List Product).length) ∧
    (calculate_similarity
        [{ id := 1, title := "a", category := "A", price := 4, description := "",
           rating := none, review_count := 0 },
         { id := 2, title := "b", category := "A", price := 2, description := "",
           rating := none, review_count := 0 }] [[1], [1]] 0).getD 1 0 =
      blendedScoreSpec
        [{ id := 1, title := "a", category := "A", price := 4, description := "",
           rating := none, review_count := 0 },
         { id := 2, title := "b", category := "A", price := 2, description := "",
           rating := none, review_count := 0 }] [[1], [1]] 0 1 :=
  ⟨by decide,
    (blended_similarity_weights _ [[1], [1]] 0 1 (by decide)).1⟩

/-- C9: with a non-empty catalog, nonnegative prices and a strictly positive
maximum price, the price component is `1 − |price_j − price_i| / max_price`
(1 on identical prices, and within `[0,1]` for in-range indices); when the
maximum price is 0 the division is performed unguarded on the zero divisor
(total `ℚ` division returns 0 there, so the component degenerates to 1 — in
the floating-point source this is a division by zero). -/
theorem price_similarity_formula (ps : List Product) (hne : ps ≠ [])
    (hp : ∀ q ∈ ps, 0 ≤ q.price) (hmax : 0 < maxCatalogPrice ps) :
    (∀ i j, price_similarity ps i j =
      1 - |(ps.getD j default).price - (ps.getD i default).price| /
        maxCatalogPrice ps) ∧
    (∀ i j, (ps.getD j default).price = (ps.getD i default).price →
      price_similarity ps i j = 1) ∧
    (∀ i j, i < ps.length → j < ps.length →
      0 ≤ price_similarity ps i j ∧ price_similarity ps i j ≤ 1) ∧
    (∀ ps2 : List Product, maxCatalogPrice ps2 = 0 →
      ∀ i j, price_similarity ps2 i j = 1) := by
  refine ⟨fun i j => rfl, ?_, ?_, ?_⟩
  · intro i j hij
    rw [price_similarity, hij]
    simp
  · intro i j hi hj
    have hmemi : (ps.getD i default) ∈ ps := by
      rw [List.getD_eq_getElem ps default hi]
      exact List.getElem_mem hi
    have hmemj : (ps.getD j default) ∈ ps := by
      rw [List.getD_eq_getElem ps default hj]
      exact List.getElem_mem hj
    have hle_i : (ps.getD i default).price ≤ maxCatalogPrice ps :=
      le_listMax1_of_mem (List.mem_map_of_mem Product.price hmemi)
    have hle_j : (ps.getD j default).price ≤ maxCatalogPrice ps :=
      le_listMax1_of_mem (List.mem_map_of_mem Product.price hmemj)
    have habs : |(ps.getD j default).price - (ps.getD i default).price| ≤
        maxCatalogPrice ps := by
      rw [abs_sub_le_iff]
      constructor
      · linarith [hp _ hmemi]
      · linarith [hp _ hmemj]
    constructor
    · rw [price_similarity]
      have hdiv : |(ps.getD j default).price - (ps.getD i default).price| /
          maxCatalogPrice ps ≤ 1 := by
        rw [div_le_one hmax]
        exact habs
      linarith
    · rw [price_similarity]
      have hdiv : 0 ≤ |(ps.getD j default).price - (ps.getD i default).price| /
          maxCatalogPrice ps := div_nonneg (abs_nonneg _) hmax.le
      linarith
  · intro ps2 hmax2 i j
    rw [price_similarity, hmax2]
    simp

/-- Witness for C9: catalog of two products priced 4 and 2; the price
component between them is in range and equals 1 on the diagonal. -/
theorem price_similarity_formula_witness :
    (([{ id := 1, title := "a", category := "A", price := 4, description := "",
         rating := none, review_count := 0 },
       { id := 2, title := "b", category := "B", price := 2, description := "",
         rating := none, review_count := 0 }] : List Product) ≠ []) ∧
    (0 < maxCatalogPrice
      [{ id := 1, title := "a", category := "A", price := 4, description := "",
         rating := none, review_count := 0 },
       { id := 2, title := "b", category := "B", price := 2, description := "",
         rating := none, review_count := 0 }]) ∧
    (0 ≤ price_similarity
      [{ id := 1, title := "a", category := "A", price := 4, description := "",
         rating := none, review_count := 0 },
       { id := 2, title := "b", category := "B", price := 2, description := "",
         rating := none, review_count := 0 }] 0 1 ∧
     price_similarity
      [{ id := 1, title := "a", category := "A", price := 4, description := "",
         rating := none, review_count := 0 },
       { id := 2, title := "b", category := "B", price := 2, description := "",
         rating := none, review_count := 0 }] 0 1 ≤ 1) :=
  ⟨by decide, by decide,
    (price_similarity_formula _ (by decide) (by decide) (by decide)).2.2.1 0 1
      (by decide) (by decide)⟩

/-! ### Argsort (numpy `argsort()[::-1]`)

Stable ascending argsort of a value list, reversed for descending order. -/

def argsortAsc {K : Type} [LinearOrder K] (vals : List K) : List Nat :=
  (sortAscBy Prod.snd vals.enum).map Prod.fst

def argsortNumpyDesc {K : Type} [LinearOrder K] (vals : List K) : List Nat :=
  (argsortAsc vals).reverse

theorem argsortAsc_perm_range {K : Type} [LinearOrder K] (vals : List K) :
    List.Perm (argsortAsc vals) (List.range vals.length) := by
  rw [argsortAsc]
  have h := (sortAscBy_perm (Prod.snd (α := Nat) (β := K)) vals.enum).map Prod.fst
  rwa [List.enum_map_fst] at h

theorem getD_of_mem_enum {K : Type} {vals : List K} {p : Nat × K} (d : K)
    (h : p ∈ vals.enum) : vals.getD p.1 d = p.2 := by
  have h1 := List.fst_lt_of_mem_enum h
  have h2 := List.snd_eq_of_mem_enum h
  rw [List.getD_eq_getElem vals d h1]
  exact h2.symm

theorem argsortAsc_pairwise {K : Type} [LinearOrder K] (vals : List K) (d : K) :
    (argsortAsc vals).Pairwise (fun i j => vals.getD i d ≤ vals.getD j d) := by
  rw [argsortAsc, List.pairwise_map]
  have hsorted := sortAscBy_pairwise (Prod.snd (α := Nat) (β := K)) vals.enum
  refine List.Pairwise.imp_of_mem ?_ hsorted
  intro a b ha hb hab
  have hmema : a ∈ vals.enum := (sortAscBy_perm _ _).mem_iff.mp ha
  have hmemb : b ∈ vals.enum := (sortAscBy_perm _ _).mem_iff.mp hb
  rw [getD_of_mem_enum d hmema, getD_of_mem_enum d hmemb]
  exact hab

theorem argsortNumpyDesc_pairwise {K : Type} [LinearOrder K] (vals : List K) (d : K) :
    (argsortNumpyDesc vals).Pairwise (fun i j => vals.getD j d ≤ vals.getD i d) := by
  rw [argsortNumpyDesc, List.pairwise_reverse]
  exact argsortAsc_pairwise vals d

theorem argsortNumpyDesc_perm_range {K : Type} [LinearOrder K] (vals : List K) :
    List.Perm (argsortNumpyDesc vals) (List.range vals.length) :=
  (List.reverse_perm _).trans (argsortAsc_perm_range vals)

/-! ### Content-based recommender state and `get_similar_products`

`find` of the index models `products_df[products_df.id == product_id].index[0]`
with the `IndexError` fallback to an empty result.  The walk over the sorted
index order skips the product itself, stops at the first score below
`min_score`, and stops once `len(recommendations) >= n` - checked after each
append, so the n-th append is still performed. -/

structure ContentState where
  products : List Product
  tfidf : List (List ℚ)

structure RecEntry where
  product_id : Nat
  title : String
  category : String
  price : ℚ
  rating : Option ℚ
  score : Option ℝ

def findIdx1 {α : Type} (p : α → Bool) : List α → Option Nat
  | [] => none
  | a :: t => if p a then some 0 else (findIdx1 p t).map (· + 1)

theorem findIdx1_eq_none {α : Type} {p : α → Bool} :
    ∀ {l : List α}, (∀ x ∈ l, p x = false) → findIdx1 p l = none
  | [], _ => rfl
  | a :: t, h => by
    rw [findIdx1, if_neg (by simp [h a (List.mem_cons_self _ _)]),
      findIdx1_eq_none (fun x hx => h x (List.mem_cons_of_mem _ hx))]
    rfl

theorem findIdx1_some {α : Type} {p : α → Bool} (d : α) :
    ∀ {l : List α} {i : Nat}, findIdx1 p l = some i →
      i < l.length ∧ p (l.getD i d) = true
  | [], i, h => by cases h
  | a :: t, i, h => by
    rw [findIdx1] at h
    by_cases hp : p a
    · rw [if_pos hp] at h
      rcases Option.some_inj.mp h with rfl
      exact ⟨Nat.succ_pos _, hp⟩
    · rw [if_neg hp] at h
      rcases Option.map_eq_some.mp h with ⟨j, hj, rfl⟩
      rcases findIdx1_some d hj with ⟨hlen, hpp⟩
      exact ⟨Nat.succ_lt_succ hlen, hpp⟩

def mkEntry (p : Product) (s : ℝ) : RecEntry :=
  { product_id := p.id, title := p.title, category := p.category,
    price := p.price, rating := p.rating, score := some s }

noncomputable def collectSimilar (ps : List Product) (scores : List ℝ)
    (product_idx n : Nat) (min_score : ℚ) : Nat → List Nat → List RecEntry
  | _, [] => []
  | count, idx :: rest =>
    if idx = product_idx then
      collectSimilar ps scores product_idx n min_score count rest
    else if scores.getD idx 0 < (min_score : ℝ) then []
    else if n ≤ count + 1 then
      [mkEntry (ps.getD idx default) (scores.getD idx 0)]
    else mkEntry (ps.getD idx default) (scores.getD idx 0) ::
      collectSimilar ps scores product_idx n min_score (count + 1) rest

noncomputable def get_similar_products (st : ContentState) (product_id : Nat)
    (n : Nat) (min_score : ℚ) : List RecEntry × ContentState :=
  match findIdx1 (fun p => p.id == product_id) st.products with
  | none => ([], st)
  | some product_idx =>
    (collectSimilar st.products
      (calculate_similarity st.products st.tfidf product_idx) product_idx n min_score 0
      (argsortNumpyDesc (calculate_similarity st.products st.tfidf product_idx)),
     st)

/-- C8: an unknown product id yields an empty result, not an error, and the
recommender state (in particular its catalog) is returned unchanged. -/
theorem get_similar_products_unknown_id (st : ContentState) (product_id n : Nat)
    (ms : ℚ) (h : ∀ p ∈ st.products, p.id ≠ product_id) :
    get_similar_products st product_id n ms = ([], st) := by
  rw [get_similar_products, findIdx1_eq_none]
  intro p hp
  simpa using h p hp

/-- Witness for C8 at a one-product catalog queried with the absent id 99. -/
theorem get_similar_products_unknown_id_witness :
    (∀ p ∈ (ContentState.mk
        [{ id := 1, title := "a", category := "A", price := 4, description := "",
           rating := none, review_count := 0 }] [[1]]).products, p.id ≠ 99) ∧
    get_similar_products (ContentState.mk
        [{ id := 1, title := "a", category := "A", price := 4, description := "",
           rating := none, review_count := 0 }] [[1]]) 99 10 (1/10) =
      ([], ContentState.mk
        [{ id := 1, title := "a", category := "A", price := 4, description := "",
           rating := none, review_count := 0 }] [[1]]) :=
  ⟨by decide,
    get_similar_products_unknown_id _ 99 10 (1/10) (by decide)⟩

theorem collectSimilar_mem (ps : List Product) (scores : List ℝ)
    (product_idx n : Nat) (ms : ℚ) :
    ∀ (idxs : List Nat) (count : Nat) (e : RecEntry),
      e ∈ collectSimilar ps scores product_idx n ms count idxs →
      ∃ idx ∈ idxs, idx ≠ product_idx ∧
        e = mkEntry (ps.getD idx default) (scores.getD idx 0) ∧
        ¬(scores.getD idx 0 < (ms : ℝ))
  | [], _, e, h => by cases h
  | idx :: rest, count, e, h => by
    rw [collectSimilar] at h
    by_cases h1 : idx = product_idx
    · rw [if_pos h1] at h
      rcases collectSimilar_mem ps scores product_idx n ms rest count e h with ⟨i, hi, hr⟩
      exact ⟨i, List.mem_cons_of_mem _ hi, hr⟩
    · rw [if_neg h1] at h
      by_cases h2 : scores.getD idx 0 < (ms : ℝ)
      · rw [if_pos h2] at h
        cases h
      · rw [if_neg h2] at h
        by_cases h3 : n ≤ count + 1
        · rw [if_pos h3] at h
          rcases List.mem_singleton.mp h with rfl
          exact ⟨idx, List.mem_cons_self _ _, h1, rfl, h2⟩
        · rw [if_neg h3] at h
          rcases List.mem_cons.mp h with rfl | h
          · exact ⟨idx, List.mem_cons_self _ _, h1, rfl, h2⟩
          · rcases collectSimilar_mem ps scores product_idx n ms rest (count + 1) e h
              with ⟨i, hi, hr⟩
            exact ⟨i, List.mem_cons_of_mem _ hi, hr⟩

theorem collectSimilar_length (ps : List Product) (scores : List ℝ)
    (product_idx n : Nat) (ms : ℚ) :
    ∀ (idxs : List Nat) (count : Nat), count < n →
      (collectSimilar ps scores product_idx n ms count idxs).length ≤ n - count
  | [], count, _ => by
    rw [collectSimilar]
    simp
  | idx :: rest, count, h => by
    rw [collectSimilar]
    by_cases h1 : idx = product_idx
    · rw [if_pos h1]
      exact collectSimilar_length ps scores product_idx n ms rest count h
    · rw [if_neg h1]
      by_cases h2 : scores.getD idx 0 < (ms : ℝ)
      · rw [if_pos h2]
        simp
      · rw [if_neg h2]
        by_cases h3 : n ≤ count + 1
        · rw [if_pos h3]
          simp only [List.length_singleton]
          omega
        · rw [if_neg h3]
          have hrec := collectSimilar_length ps scores product_idx n ms rest (count + 1)
            (by omega)
          rw [List.length_cons]
          omega

theorem collectSimilar_scores_sublist (ps : List Product) (scores : List ℝ)
    (product_idx n : Nat) (ms : ℚ) :
    ∀ (idxs : List Nat) (count : Nat),
      ((collectSimilar ps scores product_idx n ms count idxs).map
        (fun e => e.score.getD 0)).Sublist (idxs.map (fun i => scores.getD i 0))
  | [], count => by
    rw [collectSimilar]
    simp
  | idx :: rest, count => by
    rw [collectSimilar]
    by_cases h1 : idx = product_idx
    · rw [if_pos h1]
      exact (collectSimilar_scores_sublist ps scores product_idx n ms rest count).cons _
    · rw [if_neg h1]
      by_cases h2 : scores.getD idx 0 < (ms : ℝ)
      · rw [if_pos h2]
        simp
      · rw [if_neg h2]
        by_cases h3 : n ≤ count + 1
        · rw [if_pos h3]
          simp only [List.map_cons, List.map_nil]
          exact List.Sublist.cons₂ _ (List.nil_sublist _)
        · rw [if_neg h3]
          rw [List.map_cons, List.map_cons]
          exact List.Sublist.cons₂ _
            (collectSimilar_scores_sublist ps scores product_idx n ms rest (count + 1))

theorem calculate_similarity_length (ps : List Product) (tfidf : List (List ℚ))
    (i : Nat) : (calculate_similarity ps tfidf i).length = ps.length := by
  rw [calculate_similarity, List.length_map, List.length_range]

theorem getD_id_ne {ps : List Product} (h : (ps.map Product.id).Nodup)
    {i j : Nat} (hi : i < ps.length) (hj : j < ps.length) (hij : i ≠ j) :
    (ps.getD i default).id ≠ (ps.getD j default).id := by
  rw [List.getD_eq_getElem ps default hi, List.getD_eq_getElem ps default hj]
  intro hc
  have hi2 : i < (ps.map Product.id).length := by simpa using hi
  have hj2 : j < (ps.map Product.id).length := by simpa using hj
  have hmap : (ps.map Product.id)[i] = (ps.map Product.id)[j] := by
    rw [List.getElem_map, List.getElem_map]
    exact hc
  exact hij (h.getElem_inj_iff.mp hmap)

/-- C7 (amended for `n ≥ 1`): `get_similar_products` never returns the
queried product id, every returned score is at least `min_score`, the
returned scores are non-increasing in list order, and at most `n` entries
are returned.  (For `n = 0` the source appends one entry before its
`len >= n` break fires, so the bound fails there; see the counterexample.) -/
theorem similar_products_properties (st : ContentState) (product_id n : Nat)
    (ms : ℚ) (hnodup : (st.products.map Product.id).Nodup) (hn : 1 ≤ n) :
    (∀ e ∈ (get_similar_products st product_id n ms).1, e.product_id ≠ product_id) ∧
    (∀ e ∈ (get_similar_products st product_id n ms).1,
      ∃ s, e.score = some s ∧ (ms : ℝ) ≤ s) ∧
    ((get_similar_products st product_id n ms).1.map
      (fun e => e.score.getD 0)).Pairwise (fun a b => b ≤ a) ∧
    (get_similar_products st product_id n ms).1.length ≤ n := by
  rcases hfind : findIdx1 (fun p => p.id == product_id) st.products with _ | pidx
  · simp only [get_similar_products, hfind]
    simp
  · have hpidx := findIdx1_some default hfind
    have hplen : pidx < st.products.length := hpidx.1
    have hpid : (st.products.getD pidx default).id = product_id := by
      have := hpidx.2
      simpa using this
    simp only [get_similar_products, hfind]
    have hslen : (calculate_similarity st.products st.tfidf pidx).length =
        st.products.length := calculate_similarity_length _ _ _
    refine ⟨?_, ?_, ?_, ?_⟩
    · intro e he
      rcases collectSimilar_mem _ _ _ _ _ _ _ _ he with ⟨i, hi, hip, rfl, _⟩
      have hirange : i ∈ List.range (calculate_similarity st.products st.tfidf pidx).length :=
        (argsortNumpyDesc_perm_range _).mem_iff.mp hi
      have hilen : i < st.products.length := by
        rw [← hslen]
        exact List.mem_range.mp hirange
      have hne := getD_id_ne hnodup hilen hplen hip
      show (st.products.getD i default).id ≠ product_id
      rw [← hpid]
      exact hne
    · intro e he
      rcases collectSimilar_mem _ _ _ _ _ _ _ _ he with ⟨i, _, _, rfl, hscore⟩
      exact ⟨_, rfl, le_of_not_lt hscore⟩
    · exact List.Pairwise.sublist (collectSimilar_scores_sublist _ _ _ _ _ _ _)
        (by
          rw [List.pairwise_map]
          exact argsortNumpyDesc_pairwise _ 0)
    · have := collectSimilar_length st.products
        (calculate_similarity st.products st.tfidf pidx) pidx n ms
        (argsortNumpyDesc (calculate_similarity st.products st.tfidf pidx)) 0
        (by omega)
      omega

/-! ### A concrete two-product catalog used to exercise the content walk -/

def exPair : List Product :=
  [{ id := 1, title := "a", category := "A", price := 10, description := "",
     rating := some 5, review_count := 0 },
   { id := 2, title := "b", category := "A", price := 10, description := "",
     rating := some 1, review_count := 0 }]

def exPairT : List (List ℚ) := [[1], [1]]

def exPairSt : ContentState := ⟨exPair, exPairT⟩

theorem cosineSim_one_one : cosineSim [1] [1] = 1 := by
  have h : dotQ [1] [1] = 1 := by
    norm_num [dotQ]
  rw [cosineSim, if_neg (by rw [h]; norm_num), h]
  norm_num

theorem exPair_sim0 : calculate_similarity exPair exPairT 0 = [1, 1] := by
  rw [calculate_similarity]
  rw [show exPair.length = 2 from rfl, show List.range 2 = [0, 1] from rfl]
  simp only [List.map_cons, List.map_nil]
  rw [show exPairT.getD 0 [] = [1] from rfl, show exPairT.getD 1 [] = [1] from rfl]
  rw [show category_similarity exPair 0 0 = 1 from by decide,
    show category_similarity exPair 0 1 = 1 from by decide,
    show price_similarity exPair 0 0 = 1 from by
      norm_num [price_similarity, exPair, maxCatalogPrice, listMax1],
    show price_similarity exPair 0 1 = 1 from by
      norm_num [price_similarity, exPair, maxCatalogPrice, listMax1],
    cosineSim_one_one]
  norm_num

theorem exPair_argsort : argsortNumpyDesc ([1, 1] : List ℝ) = [1, 0] := by
  rw [argsortNumpyDesc, argsortAsc]
  rw [show ([1, 1] : List ℝ).enum = [(0, (1:ℝ)), (1, 1)] from rfl]
  rw [sortAscBy]
  simp [insertAscBy, List.foldl]

/-- C7 counterexample: with `n = 0` the walk still returns one entry (the
source appends before checking `len >= n`), although the queried id 1 is in
the catalog, so the returned list is longer than `n`. -/
theorem similar_products_limit_counterexample :
    (∃ p ∈ exPairSt.products, p.id = 1) ∧
    (get_similar_products exPairSt 1 0 (1/10)).1.length = 1 := by
  constructor
  · exact ⟨exPair.head (by decide), by decide, by decide⟩
  · have hfind : findIdx1 (fun p => p.id == 1) exPairSt.products = some 0 := by decide
    simp only [get_similar_products, hfind]
    have hst : exPairSt.products = exPair := rfl
    have hst2 : exPairSt.tfidf = exPairT := rfl
    rw [hst, hst2, exPair_sim0, exPair_argsort]
    rw [collectSimilar, if_neg (by norm_num), if_neg (by norm_num), if_pos (by norm_num)]
    rfl

/-- Witness for the amended C7 at the same catalog with `n = 1`. -/
theorem similar_products_properties_witness :
    ((exPairSt.products.map Product.id).Nodup) ∧
    (get_similar_products exPairSt 1 1 (1/10)).1.length ≤ 1 :=
  ⟨by decide,
    (similar_products_properties exPairSt 1 1 (1/10) (by decide) (le_refl 1)).2.2.2⟩

/-! ### Nearest neighbors (`collaborative.py`, `get_similar_users`)

`self.user_similarity_matrix[user_id]` is the user's similarity column
(equal to the row by symmetry), a series indexed by the matrix's user index;
`sort_values(ascending=False)` reverses a stable ascending argsort, and
`[1:n+1]` drops the first element of that order - intended to be the user
itself - and keeps the next `n`. -/

noncomputable def simRow (l : List Interaction) (u : Nat) : List (Nat × ℝ) :=
  (matrixUsers l).map (fun v => (v, calculate_user_similarity l u v))

noncomputable def get_similar_users (l : List Interaction) (u : Nat) (n : Nat) :
    List (Nat × ℝ) :=
  if u ∈ matrixUsers l then
    (((sortAscBy Prod.snd (simRow l u)).reverse).drop 1).take n
  else []

theorem matrixUsers_nodup (l : List Interaction) : (matrixUsers l).Nodup := by
  rw [matrixUsers]
  exact (sortAscBy_perm _ _).nodup_iff.mpr (List.nodup_dedup _)

theorem simRow_fst_nodup (l : List Interaction) (u : Nat) :
    ((simRow l u).map Prod.fst).Nodup := by
  rw [simRow, List.map_map,
    show (Prod.fst ∘ fun v => (v, calculate_user_similarity l u v)) = id from rfl,
    List.map_id]
  exact matrixUsers_nodup l

/-- C6 (amended): the returned neighbors are always ordered by similarity
descending; the user is excluded whenever their own entry is the head of the
descending order (in particular when their self-similarity strictly exceeds
every other similarity); under ties at the maximal similarity the dropped
head may be a different user, and the user itself can be returned (see the
counterexample). -/
theorem similar_users_order_and_exclusion (l : List Interaction) (u : Nat) (n : Nat) :
    ((get_similar_users l u n).map Prod.snd).Pairwise (fun a b => b ≤ a) ∧
    (((sortAscBy Prod.snd (simRow l u)).reverse).head?.map Prod.fst = some u →
      u ∉ (get_similar_users l u n).map Prod.fst) := by
  constructor
  · rw [get_similar_users]
    by_cases hu : u ∈ matrixUsers l
    · rw [if_pos hu, List.pairwise_map]
      have hsorted : ((sortAscBy Prod.snd (simRow l u)).reverse).Pairwise
          (fun a b : Nat × ℝ => b.2 ≤ a.2) := by
        rw [List.pairwise_reverse]
        exact sortAscBy_pairwise _ _
      exact List.Pairwise.sublist
        ((List.take_sublist _ _).trans (List.drop_sublist _ _)) hsorted
    · rw [if_neg hu]
      simp
  · intro hhead
    rw [get_similar_users]
    by_cases hu : u ∈ matrixUsers l
    · rw [if_pos hu]
      have hperm : List.Perm ((sortAscBy Prod.snd (simRow l u)).reverse) (simRow l u) :=
        (List.reverse_perm _).trans (sortAscBy_perm _ _)
      have hnodup : (((sortAscBy Prod.snd (simRow l u)).reverse).map Prod.fst).Nodup :=
        (hperm.map Prod.fst).nodup_iff.mpr (simRow_fst_nodup l u)
      rcases hrev : (sortAscBy Prod.snd (simRow l u)).reverse with _ | ⟨e, tail⟩
      · simp [hrev]
      · rw [hrev] at hhead hnodup
        have heu : e.1 = u := by simpa using hhead
        rw [List.map_cons, List.nodup_cons, heu] at hnodup
        have hd : (e :: tail).drop 1 = tail := rfl
        rw [hd]
        intro hmem
        have hsub := (List.take_sublist n tail).map Prod.fst
        exact hnodup.1 (hsub.subset hmem)
    · rw [if_neg hu]
      simp

theorem cosineSim_eq_zero_of_dot_eq_zero {v w : List ℚ} (h : dotQ v w = 0) :
    cosineSim v w = 0 := by
  rw [cosineSim]
  by_cases hc : dotQ v v = 0 ∨ dotQ w w = 0
  · rw [if_pos hc]
  · rw [if_neg hc, h]
    simp

/-- Two users with identical single-product histories: all pairwise
similarities are exactly 1. -/
def exTie : List Interaction :=
  [⟨1, 1, IType.view, 0, 0⟩, ⟨2, 1, IType.view, 0, 1⟩]

/-- Two users with disjoint single-product histories: cross similarity 0. -/
def exOrtho : List Interaction :=
  [⟨1, 1, IType.view, 0, 1⟩, ⟨2, 2, IType.view, 0, 2⟩]

theorem exTie_simRow : simRow exTie 1 = [(1, (1:ℝ)), (2, 1)] := by
  rw [simRow, show matrixUsers exTie = [1, 2] from by decide]
  simp only [List.map_cons, List.map_nil]
  rw [calculate_user_similarity, calculate_user_similarity,
    show rowOf exTie 1 = [1] from by decide,
    show rowOf exTie 2 = [1] from by decide,
    cosineSim_one_one]

/-- C6 counterexample: under a similarity tie at 1.0 (two users with
identical rows) the element dropped by `[1:n+1]` is the other user, and the
queried user 1 is returned as their own neighbor. -/
theorem similar_users_self_counterexample :
    1 ∈ matrixUsers exTie ∧ 1 ∈ (get_similar_users exTie 1 10).map Prod.fst := by
  refine ⟨by decide, ?_⟩
  rw [get_similar_users, if_pos (by decide), exTie_simRow]
  rw [show sortAscBy Prod.snd [(1, (1:ℝ)), (2, 1)] = [(1, (1:ℝ)), (2, 1)] from by
    simp [sortAscBy, insertAscBy]]
  rw [show ([(1, (1:ℝ)), (2, 1)]).reverse = [(2, (1:ℝ)), (1, 1)] from rfl]
  simp

theorem exOrtho_simRow : simRow exOrtho 1 = [(1, (1:ℝ)), (2, 0)] := by
  rw [simRow, show matrixUsers exOrtho = [1, 2] from by decide]
  simp only [List.map_cons, List.map_nil]
  rw [calculate_user_similarity, calculate_user_similarity,
    show rowOf exOrtho 1 = [1, 0] from by decide,
    show rowOf exOrtho 2 = [0, 1] from by decide,
    cosineSim_self (v := [1, 0]) (by norm_num [dotQ]),
    cosineSim_eq_zero_of_dot_eq_zero (v := [1, 0]) (w := [0, 1]) (by norm_num [dotQ])]

theorem exOrtho_sorted :
    (sortAscBy Prod.snd (simRow exOrtho 1)).reverse = [(1, (1:ℝ)), (2, 0)] := by
  rw [exOrtho_simRow]
  rw [show sortAscBy Prod.snd [(1, (1:ℝ)), (2, 0)] = [(2, (0:ℝ)), (1, 1)] from by
    simp [sortAscBy, insertAscBy]]
  rfl

/-- Witness for the amended C6: with distinct similarities the head of the
descending order is the user themselves, who is then excluded. -/
theorem similar_users_order_witness :
    ((sortAscBy Prod.snd (simRow exOrtho 1)).reverse.head?.map Prod.fst = some 1) ∧
    1 ∉ (get_similar_users exOrtho 1 10).map Prod.fst := by
  have hhead : ((sortAscBy Prod.snd (simRow exOrtho 1)).reverse.head?.map Prod.fst =
      some 1) := by
    rw [exOrtho_sorted]
    rfl
  exact ⟨hhead, (similar_users_order_and_exclusion exOrtho 1 10).2 hhead⟩

/-! ### Popularity fallback and collaborative recommendations
(`collaborative.py`, `_get_popular_products` / `get_recommendations`)

The fallback ranks catalog products by interaction count descending, ties by
catalog rating descending (SQL `ORDER BY ... DESC` places NULL ratings
first, modelled by mapping an absent rating to `⊤`), limited to `n`.  The
main path filters the top-50 neighbors by `min_similarity`, accumulates
`cell × similarity` over each neighbor's positive products, skipping
products the target user has interacted with, sorts, truncates, enriches
ids from the catalog and sorts the final entries by score. -/

def interactionCount (l : List Interaction) (pid : Nat) : Nat :=
  (l.filter (fun i => i.product_id == pid)).length

def ratingKey : Option ℚ → WithTop ℚ
  | some q => (q : WithTop ℚ)
  | none => ⊤

def get_popular_products (ps : List Product) (l : List Interaction) (n : Nat) :
    List RecEntry :=
  ((sortDescBy
      (fun p => toLex ((interactionCount l p.id : Nat), ratingKey p.rating)) ps).take n).map
    (fun p => { product_id := p.id, title := p.title, category := p.category,
                price := p.price, rating := p.rating, score := none })

def userPositiveProducts (l : List Interaction) (u : Nat) : List Nat :=
  (matrixProducts l).filter (fun p => decide (0 < matrixCell l u p))

def addScore (d : List (Nat × ℝ)) (p : Nat) (s : ℝ) : List (Nat × ℝ) :=
  if (d.find? (fun e => e.1 == p)).isSome then
    d.map (fun e => if e.1 == p then (e.1, e.2 + s) else e)
  else d ++ [(p, s)]

noncomputable def accumulateScores (l : List Interaction) (user_products : List Nat)
    (similar : List (Nat × ℝ)) : List (Nat × ℝ) :=
  similar.foldl (fun d vs =>
    ((matrixProducts l).filter (fun p => decide (0 < matrixCell l vs.1 p))).foldl
      (fun d2 p =>
        if p ∈ user_products then d2
        else addScore d2 p ((matrixCell l vs.1 p : ℝ) * vs.2)) d) []

noncomputable def filteredSimilar (l : List Interaction) (u : Nat) (ms : ℚ) :
    List (Nat × ℝ) :=
  (get_similar_users l u 50).filter (fun e => decide ((ms : ℝ) ≤ e.2))

noncomputable def sortedProductScores (l : List Interaction) (u n : Nat) (ms : ℚ) :
    List (Nat × ℝ) :=
  (sortDescBy Prod.snd
    (accumulateScores l (userPositiveProducts l u) (filteredSimilar l u ms))).take n

def lookupScoreR (d : List (Nat × ℝ)) (p : Nat) : ℝ :=
  match d.find? (fun e => e.1 == p) with
  | some e => e.2
  | none => 0

noncomputable def enrichRecommendations (ps : List Product)
    (sorted_products : List (Nat × ℝ)) : List RecEntry :=
  sortDescBy (fun e : RecEntry => e.score.getD 0)
    ((ps.filter (fun p => decide (p.id ∈ sorted_products.map Prod.fst))).map
      (fun p => { product_id := p.id, title := p.title, category := p.category,
                  price := p.price, rating := p.rating,
                  score := some (lookupScoreR sorted_products p.id) }))

noncomputable def get_recommendations (l : List Interaction) (ps : List Product)
    (u : Nat) (n : Nat) (min_similarity : ℚ) : List RecEntry :=
  if u ∉ matrixUsers l then get_popular_products ps l n
  else if (filteredSimilar l u min_similarity).isEmpty then get_popular_products ps l n
  else if (sortedProductScores l u n min_similarity).isEmpty then
    get_popular_products ps l n
  else enrichRecommendations ps (sortedProductScores l u n min_similarity)

theorem addScore_keys {d : List (Nat × ℝ)} {p : Nat} {s : ℝ} :
    ∀ k ∈ (addScore d p s).map Prod.fst, k = p ∨ k ∈ d.map Prod.fst := by
  intro k hk
  rw [addScore] at hk
  by_cases h : (d.find? (fun e => e.1 == p)).isSome
  · rw [if_pos h, List.map_map] at hk
    rcases List.mem_map.mp hk with ⟨e, he, rfl⟩
    right
    have hfst : (Prod.fst ∘ fun e : Nat × ℝ => if e.1 == p then (e.1, e.2 + s) else e) e
        = e.1 := by
      by_cases hb : e.1 = p
      · simp [hb]
      · simp [hb]
    rw [hfst]
    exact List.mem_map_of_mem Prod.fst he
  · rw [if_neg h, List.map_append] at hk
    rcases List.mem_append.mp hk with hk | hk
    · exact Or.inr hk
    · left
      simpa using hk

theorem accumulateScores_keys (l : List Interaction) (ups : List Nat)
    (similar : List (Nat × ℝ)) :
    ∀ k ∈ (accumulateScores l ups similar).map Prod.fst, k ∉ ups := by
  have hinner : ∀ (vs : Nat × ℝ) (prods : List Nat) (d : List (Nat × ℝ)),
      (∀ k ∈ d.map Prod.fst, k ∉ ups) →
      ∀ k ∈ (prods.foldl (fun d2 p =>
        if p ∈ ups then d2
        else addScore d2 p ((matrixCell l vs.1 p : ℝ) * vs.2)) d).map Prod.fst, k ∉ ups := by
    intro vs prods
    induction prods with
    | nil => intro d hd; exact hd
    | cons p rest ih =>
      intro d hd
      rw [List.foldl_cons]
      by_cases hp : p ∈ ups
      · rw [if_pos hp]
        exact ih d hd
      · rw [if_neg hp]
        refine ih _ ?_
        intro k hk
        rcases addScore_keys k hk with rfl | hk2
        · exact hp
        · exact hd k hk2
  have houter : ∀ (sim : List (Nat × ℝ)) (d : List (Nat × ℝ)),
      (∀ k ∈ d.map Prod.fst, k ∉ ups) →
      ∀ k ∈ (sim.foldl (fun d vs =>
        ((matrixProducts l).filter (fun p => decide (0 < matrixCell l vs.1 p))).foldl
          (fun d2 p =>
            if p ∈ ups then d2
            else addScore d2 p ((matrixCell l vs.1 p : ℝ) * vs.2)) d) d).map Prod.fst,
        k ∉ ups := by
    intro sim
    induction sim with
    | nil => intro d hd; exact hd
    | cons vs rest ih =>
      intro d hd
      rw [List.foldl_cons]
      exact ih _ (hinner vs _ d hd)
  exact houter similar [] (by simp)

theorem pos_cell_mem_products {l : List Interaction} {u p : Nat}
    (h : 0 < matrixCell l u p) : p ∈ matrixProducts l := by
  rcases hps : pairScores l u p with _ | ⟨a, t⟩
  · rw [matrixCell, hps] at h
    norm_num [listMax1] at h
  · have ha : a ∈ pairScores l u p := by
      rw [hps]
      exact List.mem_cons_self _ _
    rcases mem_pairScores.mp ha with ⟨i, hi, _, hip, hs⟩
    exact mem_matrixProducts.mpr ⟨i, hi, hip, _, hs⟩

/-- C1 (amended): any returned entry whose product has a positive score in
the target user's own row can only come from the popularity fallback
(unknown user, no neighbor above `min_similarity`, or an empty accumulated
score set); on the main path such products are filtered out. -/
theorem collaborative_recommendations_exclusion (l : List Interaction)
    (ps : List Product) (u n : Nat) (ms : ℚ) :
    ∀ e ∈ get_recommendations l ps u n ms, 0 < matrixCell l u e.product_id →
      e ∈ get_popular_products ps l n := by
  intro e he hpos
  rw [get_recommendations] at he
  by_cases h1 : u ∉ matrixUsers l
  · rwa [if_pos h1] at he
  · rw [if_neg h1] at he
    by_cases h2 : (filteredSimilar l u ms).isEmpty
    · rwa [if_pos h2] at he
    · rw [if_neg h2] at he
      by_cases h3 : (sortedProductScores l u n ms).isEmpty
      · rwa [if_pos h3] at he
      · rw [if_neg h3] at he
        exfalso
        rw [enrichRecommendations] at he
        have he2 := (sortDescBy_perm _ _).mem_iff.mp he
        rcases List.mem_map.mp he2 with ⟨p, hp, rfl⟩
        rcases List.mem_filter.mp hp with ⟨_, hpid⟩
        have hpid2 : p.id ∈ (sortedProductScores l u n ms).map Prod.fst := by
          simpa using hpid
        have hkeys : p.id ∈ (accumulateScores l (userPositiveProducts l u)
            (filteredSimilar l u ms)).map Prod.fst := by
          rcases List.mem_map.mp hpid2 with ⟨pr, hpr, hpr2⟩
          rw [← hpr2]
          refine List.mem_map_of_mem Prod.fst ?_
          have hsub : (sortedProductScores l u n ms).Sublist
              (sortDescBy Prod.snd (accumulateScores l (userPositiveProducts l u)
                (filteredSimilar l u ms))) := List.take_sublist _ _
          exact (sortDescBy_perm _ _).mem_iff.mp (hsub.subset hpr)
        have hnot := accumulateScores_keys l (userPositiveProducts l u)
          (filteredSimilar l u ms) p.id hkeys
        apply hnot
        rw [userPositiveProducts, List.mem_filter]
        exact ⟨pos_cell_mem_products hpos, by simpa using hpos⟩

def exOrthoPs : List Product :=
  [{ id := 1, title := "a", category := "A", price := 10, description := "",
     rating := some 5, review_count := 0 },
   { id := 2, title := "b", category := "B", price := 10, description := "",
     rating := some 1, review_count := 0 }]

theorem exOrtho_filtered : filteredSimilar exOrtho 1 (1/10) = [] := by
  rw [filteredSimilar, get_similar_users, if_pos (by decide), exOrtho_sorted]
  simp only [show (([(1, (1:ℝ)), (2, 0)]).drop 1).take 50 = [(2, (0:ℝ))] from rfl]
  rw [List.filter_eq_nil_iff]
  intro a ha
  rcases List.mem_singleton.mp ha with rfl
  simp only [decide_eq_true_eq]
  push_cast
  norm_num

theorem exOrtho_recs : get_recommendations exOrtho exOrthoPs 1 10 (1/10) =
    get_popular_products exOrthoPs exOrtho 10 := by
  rw [get_recommendations, if_neg (by decide), if_pos (by rw [exOrtho_filtered]; rfl)]

def exEntry1 : RecEntry :=
  { product_id := 1, title := "a", category := "A", price := 10,
    rating := some 5, score := none }

def exEntry2 : RecEntry :=
  { product_id := 2, title := "b", category := "B", price := 10,
    rating := some 1, score := none }

theorem exOrtho_popular : get_popular_products exOrthoPs exOrtho 10 =
    [exEntry1, exEntry2] := rfl

/-- C1 counterexample: user 1 is present in the matrix, but no neighbor
reaches `min_similarity = 0.1` (the only other user is orthogonal), so the
popularity fallback is returned - and it contains product 1, which has
positive score 1 in user 1's own row. -/
theorem collaborative_fallback_counterexample :
    1 ∈ matrixUsers exOrtho ∧
    ∃ e ∈ get_recommendations exOrtho exOrthoPs 1 10 (1/10),
      0 < matrixCell exOrtho 1 e.product_id := by
  refine ⟨by decide, ?_⟩
  rw [exOrtho_recs, exOrtho_popular]
  refine ⟨exEntry1, by simp, by decide⟩

/-- Witness for the amended C1 at the same input: the offending entry does
come from the popularity fallback. -/
theorem collaborative_recommendations_exclusion_witness :
    ∃ e ∈ get_recommendations exOrtho exOrthoPs 1 10 (1/10),
      0 < matrixCell exOrtho 1 e.product_id ∧
      e ∈ get_popular_products exOrthoPs exOrtho 10 := by
  have hmem : exEntry1 ∈ get_recommendations exOrtho exOrthoPs 1 10 (1/10) := by
    rw [exOrtho_recs, exOrtho_popular]
    simp
  exact ⟨exEntry1, hmem, by decide,
    collaborative_recommendations_exclusion exOrtho exOrthoPs 1 10 (1/10) exEntry1 hmem
      (by decide)⟩

/-! ### Content recommendations for a user
(`content_based.py`, `get_recommendations_for_user`)

The SQL picks the user's distinct interacted products with their latest
timestamp (inner `DISTINCT ON ... ORDER BY p.id, timestamp DESC`), orders
them by that timestamp descending and keeps the 10 most recent.  For each of
these, `get_similar_products(id, n=20)` is computed (default
`min_score=0.1`); scores of a product id reached from several sources are
summed in the dict, the rec data coming from the first occurrence; products
in the **recent window** are removed, the rest sorted descending and
truncated to `n`; an empty history routes to the popularity fallback. -/

def listMaxNat (l : List Nat) : Nat := l.foldr max 0

def userInteractedPids (l : List Interaction) (u : Nat) : List Nat :=
  ((l.filter (fun i => i.user_id == u)).map Interaction.product_id).dedup

def latestTs (l : List Interaction) (u p : Nat) : Nat :=
  listMaxNat ((l.filter (fun i => i.user_id == u && i.product_id == p)).map
    Interaction.timestamp)

def recent_products (l : List Interaction) (u : Nat) : List Nat :=
  (sortDescBy (fun p => latestTs l u p)
    (sortAscBy (fun p => p) (userInteractedPids l u))).take 10

def simScoreOf (recs : List RecEntry) (p : Nat) : ℝ :=
  match recs.find? (fun r => r.product_id == p) with
  | some r => r.score.getD 0
  | none => 0

noncomputable def addRec (d : List (Nat × RecEntry)) (rec : RecEntry) :
    List (Nat × RecEntry) :=
  if (d.find? (fun e => e.1 == rec.product_id)).isSome then
    d.map (fun e => if e.1 == rec.product_id then
      (e.1, { product_id := e.2.product_id, title := e.2.title,
              category := e.2.category, price := e.2.price, rating := e.2.rating,
              score := some (e.2.score.getD 0 + rec.score.getD 0) }) else e)
  else d ++ [(rec.product_id, rec)]

noncomputable def aggregateRecs (st : ContentState) (sources : List Nat) :
    List (Nat × RecEntry) :=
  sources.foldl (fun d pid =>
    ((get_similar_products st pid 20 (1/10)).1).foldl (fun d2 rec => addRec d2 rec) d) []

noncomputable def get_recommendations_for_user (st : ContentState)
    (l : List Interaction) (u : Nat) (n : Nat) : List RecEntry :=
  if (recent_products l u).isEmpty then get_popular_products st.products l n
  else
    (sortDescBy (fun e : RecEntry => e.score.getD 0)
      (((aggregateRecs st (recent_products l u)).filter
        (fun e => decide (e.1 ∉ recent_products l u))).map Prod.snd)).take n

theorem addRec_keys (d : List (Nat × RecEntry)) (rec : RecEntry) :
    (addRec d rec).map Prod.fst =
      if (d.find? (fun e => e.1 == rec.product_id)).isSome then d.map Prod.fst
      else d.map Prod.fst ++ [rec.product_id] := by
  rw [addRec]
  by_cases h : (d.find? (fun e => e.1 == rec.product_id)).isSome
  · rw [if_pos h, if_pos h, List.map_map]
    apply List.map_congr_left
    intro e _
    by_cases hb : e.1 = rec.product_id
    · simp [hb]
    · simp [hb]
  · rw [if_neg h, if_neg h]
    simp

/-- Characterization of the aggregation dict after folding a list of
recommendation entries: keys stay coherent and distinct, and a key's score
is its initial score plus the sum of all folded scores with that product id
(just the sum, for a fresh key). -/
theorem foldl_addRec_spec : ∀ (L : List RecEntry) (d : List (Nat × RecEntry)),
    (∀ pr ∈ d, pr.2.product_id = pr.1) → ((d.map Prod.fst).Nodup) →
    (∀ pr ∈ L.foldl addRec d, pr.2.product_id = pr.1) ∧
    ((L.foldl addRec d).map Prod.fst).Nodup ∧
    (∀ pr ∈ L.foldl addRec d,
      (∃ pr0 ∈ d, pr0.1 = pr.1 ∧
        pr.2.score.getD 0 = pr0.2.score.getD 0 +
          ((L.filter (fun r => r.product_id == pr.1)).map
            (fun r => r.score.getD 0)).sum) ∨
      (pr.1 ∉ d.map Prod.fst ∧
        pr.2.score.getD 0 =
          ((L.filter (fun r => r.product_id == pr.1)).map
            (fun r => r.score.getD 0)).sum)) ∧
    (∀ k, k ∈ (L.foldl addRec d).map Prod.fst ↔
      (k ∈ d.map Prod.fst ∨ k ∈ L.map RecEntry.product_id)) := by
  intro L
  induction L with
  | nil =>
    intro d hco hnd
    refine ⟨hco, hnd, ?_, ?_⟩
    · intro pr hpr
      exact Or.inl ⟨pr, hpr, rfl, by simp⟩
    · intro k
      simp
  | cons r L ih =>
    intro d hco hnd
    rw [List.foldl_cons]
    by_cases h : (d.find? (fun e => e.1 == r.product_id)).isSome
    · -- update in place
      have hup : addRec d r = d.map (fun e => if e.1 == r.product_id then
          (e.1, { product_id := e.2.product_id, title := e.2.title,
                  category := e.2.category, price := e.2.price, rating := e.2.rating,
                  score := some (e.2.score.getD 0 + r.score.getD 0) }) else e) := by
        rw [addRec, if_pos h]
      have hkeys : (addRec d r).map Prod.fst = d.map Prod.fst := by
        rw [addRec_keys, if_pos h]
      have hco2 : ∀ pr ∈ addRec d r, pr.2.product_id = pr.1 := by
        intro pr hpr
        rw [hup] at hpr
        rcases List.mem_map.mp hpr with ⟨e, he, rfl⟩
        by_cases hb : e.1 = r.product_id
        · simp only [hb, beq_self_eq_true, if_true]
          exact hb ▸ hco e he
        · simp only [beq_eq_false_iff_ne, ne_eq, hb, not_false_eq_true,
            beq_iff_eq, if_neg hb]
          exact hco e he
      have hnd2 : ((addRec d r).map Prod.fst).Nodup := by
        rw [hkeys]
        exact hnd
      rcases ih (addRec d r) hco2 hnd2 with ⟨ihco, ihnd, ihscore, ihmem⟩
      have hrk : r.product_id ∈ d.map Prod.fst := by
        rcases Option.isSome_iff_exists.mp h with ⟨e, he⟩
        have h1 := List.find?_some he
        have h2 := List.mem_of_find?_eq_some he
        simp only [beq_iff_eq] at h1
        exact h1 ▸ List.mem_map_of_mem Prod.fst h2
      refine ⟨ihco, ihnd, ?_, ?_⟩
      · intro pr hpr
        rcases ihscore pr hpr with ⟨pr0', hpr0', hk0, hs0⟩ | ⟨hfresh, hs0⟩
        · -- the entry traces back through the update
          rw [hup] at hpr0'
          rcases List.mem_map.mp hpr0' with ⟨pr0, hpr0, hpr0eq⟩
          by_cases hb : pr0.1 = r.product_id
          · left
            refine ⟨pr0, hpr0, ?_, ?_⟩
            · rw [← hk0, ← hpr0eq]
              simp [hb]
            · have hfst : pr0.1 = pr.1 := by
                rw [← hk0, ← hpr0eq]
                simp [hb]
              have hsnd : pr0'.2.score.getD 0 = pr0.2.score.getD 0 + r.score.getD 0 := by
                rw [← hpr0eq]
                simp [hb]
              have hfilter : (r :: L).filter (fun x => x.product_id == pr.1) =
                  r :: L.filter (fun x => x.product_id == pr.1) := by
                rw [List.filter_cons, if_pos (by simp [← hfst, hb])]
              rw [hfilter, List.map_cons, List.sum_cons, hs0, hsnd]
              ring
          · left
            have hid : pr0' = pr0 := by
              rw [← hpr0eq]
              simp [hb]
            refine ⟨pr0, hpr0, by rw [← hk0, hid], ?_⟩
            have hfst : pr0.1 = pr.1 := by rw [← hk0, hid]
            have hfilter : (r :: L).filter (fun x => x.product_id == pr.1) =
                L.filter (fun x => x.product_id == pr.1) := by
              rw [List.filter_cons, if_neg (by
                simp only [beq_iff_eq, ← hfst]
                exact Ne.symm hb)]
            rw [hfilter, hs0, hid]
        · -- fresh w.r.t. the updated dict, hence fresh w.r.t. d
          right
          rw [hkeys] at hfresh
          have hne : pr.1 ≠ r.product_id := by
            intro hc
            exact hfresh (hc ▸ hrk)
          have hfilter : (r :: L).filter (fun x => x.product_id == pr.1) =
              L.filter (fun x => x.product_id == pr.1) := by
            rw [List.filter_cons, if_neg (by simp [Ne.symm hne])]
          rw [hfilter]
          exact ⟨hfresh, hs0⟩
      · intro k
        rw [ihmem k, hkeys, List.map_cons]
        constructor
        · rintro (hk | hk)
          · exact Or.inl hk
          · exact Or.inr (List.mem_cons_of_mem _ hk)
        · rintro (hk | hk)
          · exact Or.inl hk
          · rcases List.mem_cons.mp hk with rfl | hk
            · exact Or.inl hrk
            · exact Or.inr hk
    · -- fresh key: appended
      have hup : addRec d r = d ++ [(r.product_id, r)] := by
        rw [addRec, if_neg h]
      have hrk : r.product_id ∉ d.map Prod.fst := by
        intro hk
        rcases List.mem_map.mp hk with ⟨e, he, hke⟩
        have : d.find? (fun x => x.1 == r.product_id) ≠ none := by
          intro hc
          rw [List.find?_eq_none] at hc
          exact hc e he (by simpa using hke)
        exact h (Option.isSome_iff_ne_none.mpr this)
      have hco2 : ∀ pr ∈ addRec d r, pr.2.product_id = pr.1 := by
        intro pr hpr
        rw [hup] at hpr
        rcases List.mem_append.mp hpr with hpr | hpr
        · exact hco pr hpr
        · rcases List.mem_singleton.mp hpr with rfl
          rfl
      have hnd2 : ((addRec d r).map Prod.fst).Nodup := by
        rw [hup, List.map_append]
        simp only [List.map_cons, List.map_nil]
        rw [List.nodup_append]
        refine ⟨hnd, List.nodup_singleton _, ?_⟩
        intro a ha hb
        rcases List.mem_singleton.mp hb with rfl
        exact hrk ha
      rcases ih (addRec d r) hco2 hnd2 with ⟨ihco, ihnd, ihscore, ihmem⟩
      refine ⟨ihco, ihnd, ?_, ?_⟩
      · intro pr hpr
        rcases ihscore pr hpr with ⟨pr0', hpr0', hk0, hs0⟩ | ⟨hfresh, hs0⟩
        · rw [hup] at hpr0'
          rcases List.mem_append.mp hpr0' with hpr0 | hpr0
          · -- traces to an old entry, whose key differs from the new one
            left
            have hne : pr.1 ≠ r.product_id := by
              intro hc
              exact hrk (hc ▸ hk0 ▸ List.mem_map_of_mem Prod.fst hpr0)
            have hfilter : (r :: L).filter (fun x => x.product_id == pr.1) =
                L.filter (fun x => x.product_id == pr.1) := by
              rw [List.filter_cons, if_neg (by simp [Ne.symm hne])]
            rw [hfilter]
            exact ⟨pr0', hpr0, hk0, hs0⟩
          · -- traces to the newly appended entry
            right
            rcases List.mem_singleton.mp hpr0 with rfl
            have hk1 : pr.1 = r.product_id := hk0.symm
            refine ⟨by rw [hk1]; exact hrk, ?_⟩
            have hfilter : (r :: L).filter (fun x => x.product_id == pr.1) =
                r :: L.filter (fun x => x.product_id == pr.1) := by
              rw [List.filter_cons, if_pos (by simp [hk1])]
            rw [hfilter, List.map_cons, List.sum_cons, hs0]
        · right
          rw [hup, List.map_append] at hfresh
          simp only [List.map_cons, List.map_nil] at hfresh
          have hfresh2 : pr.1 ∉ d.map Prod.fst ∧ pr.1 ≠ r.product_id := by
            constructor
            · intro hc
              exact hfresh (List.mem_append_left _ hc)
            · intro hc
              exact hfresh (List.mem_append_right _ (by simp [hc]))
          have hfilter : (r :: L).filter (fun x => x.product_id == pr.1) =
              L.filter (fun x => x.product_id == pr.1) := by
            rw [List.filter_cons, if_neg (by simp [Ne.symm hfresh2.2])]
          rw [hfilter]
          exact ⟨hfresh2.1, hs0⟩
      · intro k
        rw [ihmem k, hup, List.map_append]
        simp only [List.map_cons, List.map_nil, List.mem_append,
          List.mem_singleton, List.mem_cons, List.not_mem_nil, or_false]
        tauto

theorem collectSimilar_exists_sel (ps : List Product) (scores : List ℝ)
    (pidx n : Nat) (ms : ℚ) :
    ∀ (idxs : List Nat) (count : Nat), ∃ sel : List Nat,
      sel.Sublist idxs ∧ (∀ i ∈ sel, i ≠ pidx) ∧
      collectSimilar ps scores pidx n ms count idxs =
        sel.map (fun i => mkEntry (ps.getD i default) (scores.getD i 0))
  | [], _ => ⟨[], List.nil_sublist _, by simp, by rw [collectSimilar]; rfl⟩
  | idx :: rest, count => by
    rw [collectSimilar]
    by_cases h1 : idx = pidx
    · rw [if_pos h1]
      rcases collectSimilar_exists_sel ps scores pidx n ms rest count
        with ⟨sel, hsub, hsel, heq⟩
      exact ⟨sel, hsub.cons _, hsel, heq⟩
    · rw [if_neg h1]
      by_cases h2 : scores.getD idx 0 < (ms : ℝ)
      · rw [if_pos h2]
        exact ⟨[], List.nil_sublist _, by simp, rfl⟩
      · rw [if_neg h2]
        by_cases h3 : n ≤ count + 1
        · rw [if_pos h3]
          exact ⟨[idx], List.Sublist.cons₂ _ (List.nil_sublist _),
            by simpa using h1, rfl⟩
        · rw [if_neg h3]
          rcases collectSimilar_exists_sel ps scores pidx n ms rest (count + 1)
            with ⟨sel, hsub, hsel, heq⟩
          refine ⟨idx :: sel, hsub.cons₂ _, ?_, by rw [heq]; rfl⟩
          intro i hi
          rcases List.mem_cons.mp hi with rfl | hi
          · exact h1
          · exact hsel i hi

theorem get_similar_products_pids_nodup (st : ContentState) (pid n : Nat) (ms : ℚ)
    (hnodup : (st.products.map Product.id).Nodup) :
    (((get_similar_products st pid n ms).1).map RecEntry.product_id).Nodup := by
  rcases hfind : findIdx1 (fun p => p.id == pid) st.products with _ | pidx
  · simp [get_similar_products, hfind]
  · simp only [get_similar_products, hfind]
    rcases collectSimilar_exists_sel st.products
      (calculate_similarity st.products st.tfidf pidx) pidx n ms
      (argsortNumpyDesc (calculate_similarity st.products st.tfidf pidx)) 0
      with ⟨sel, hsub, _, heq⟩
    rw [heq, List.map_map]
    have hargnodup : (argsortNumpyDesc
        (calculate_similarity st.products st.tfidf pidx)).Nodup :=
      (argsortNumpyDesc_perm_range _).nodup_iff.mpr (List.nodup_range _)
    have hselnodup : sel.Nodup := hsub.nodup hargnodup
    have hsellen : ∀ i ∈ sel, i < st.products.length := by
      intro i hi
      have := (argsortNumpyDesc_perm_range _).mem_iff.mp (hsub.subset hi)
      rw [List.mem_range, calculate_similarity_length] at this
      exact this
    refine hselnodup.map_on ?_
    intro i hi j hj hij
    by_contra hne
    exact getD_id_ne hnodup (hsellen i hi) (hsellen j hj) hne hij

theorem filter_sum_eq_simScoreOf (recs : List RecEntry) (k : Nat)
    (hnodup : (recs.map RecEntry.product_id).Nodup) :
    ((recs.filter (fun r => r.product_id == k)).map (fun r => r.score.getD 0)).sum =
      simScoreOf recs k := by
  induction recs with
  | nil => simp [simScoreOf]
  | cons a t ih =>
    rw [List.filter_cons]
    by_cases ha : a.product_id = k
    · rw [if_pos (by simp [ha])]
      have ht : t.filter (fun r => r.product_id == k) = [] := by
        rw [List.filter_eq_nil_iff]
        intro x hx
        simp only [beq_iff_eq]
        intro hc
        have hx2 : x.product_id ∈ t.map RecEntry.product_id :=
          List.mem_map_of_mem _ hx
        rw [hc, ← ha] at hx2
        exact (List.nodup_cons.mp (by simpa using hnodup)).1 hx2
      have hfind : (a :: t).find? (fun r => r.product_id == k) = some a :=
        List.find?_cons_of_pos _ (by simp [ha])
      rw [List.map_cons, List.sum_cons, ht]
      simp [simScoreOf, hfind]
    · rw [if_neg (by simp [ha])]
      rw [ih (List.nodup_cons.mp (by simpa using hnodup)).2]
      have hfind : (a :: t).find? (fun r => r.product_id == k) =
          t.find? (fun r => r.product_id == k) :=
        List.find?_cons_of_neg _ (by simp [ha])
      simp [simScoreOf, hfind]

theorem aggregateRecs_eq_flatten (st : ContentState) (srcs : List Nat) :
    aggregateRecs st srcs =
      ((srcs.map (fun s => (get_similar_products st s 20 (1/10)).1)).flatten).foldl
        addRec [] := by
  rw [aggregateRecs]
  suffices hgen : ∀ (srcs : List Nat) (d : List (Nat × RecEntry)),
      srcs.foldl (fun d pid =>
        ((get_similar_products st pid 20 (1/10)).1).foldl (fun d2 rec => addRec d2 rec) d) d =
      ((srcs.map (fun s => (get_similar_products st s 20 (1/10)).1)).flatten).foldl
        addRec d from hgen srcs []
  intro srcs
  induction srcs with
  | nil => intro d; rfl
  | cons a t iha =>
    intro d
    rw [List.foldl_cons, iha, List.map_cons, List.flatten_cons, List.foldl_append]

theorem sum_filter_flatten (Ls : List (List RecEntry)) (k : Nat) :
    ((Ls.flatten.filter (fun r => r.product_id == k)).map
      (fun r => r.score.getD 0)).sum =
      (Ls.map (fun rs => ((rs.filter (fun r => r.product_id == k)).map
        (fun r => r.score.getD 0)).sum)).sum := by
  induction Ls with
  | nil => simp
  | cons a t ih =>
    rw [List.flatten_cons, List.filter_append, List.map_append, List.sum_append,
      List.map_cons, List.sum_cons, ih]

theorem pairwise_all {α : Type} {R : α → α → Prop} :
    ∀ {l : List α}, (∀ a ∈ l, ∀ b ∈ l, R a b) → l.Pairwise R
  | [], _ => List.Pairwise.nil
  | a :: t, h => List.pairwise_cons.mpr
      ⟨fun b hb => h a (List.mem_cons_self _ _) b (List.mem_cons_of_mem _ hb),
       pairwise_all (fun x hx y hy =>
         h x (List.mem_cons_of_mem _ hx) y (List.mem_cons_of_mem _ hy))⟩

theorem get_popular_products_score_none (ps : List Product) (l : List Interaction)
    (n : Nat) : ∀ e ∈ get_popular_products ps l n, e.score = none := by
  intro e he
  rw [get_popular_products] at he
  rcases List.mem_map.mp he with ⟨p, _, rfl⟩
  rfl

theorem get_popular_products_length (ps : List Product) (l : List Interaction)
    (n : Nat) : (get_popular_products ps l n).length ≤ n := by
  rw [get_popular_products, List.length_map]
  exact (List.length_take _ _).le.trans (min_le_left _ _)

/-- C10 (amended): an empty recent history routes to the popularity
fallback; no returned product id lies in the user's recent-10 window (the
window actually excluded - an older history product outside the window can
be returned, see the counterexample); a product's aggregated score is the
sum of its similarity scores over the recent source items; the output is
sorted by aggregated score descending and truncated to `n`. -/
theorem content_user_recommendations (st : ContentState) (l : List Interaction)
    (u n : Nat) (hnodup : (st.products.map Product.id).Nodup) :
    ((recent_products l u).isEmpty = true →
      get_recommendations_for_user st l u n = get_popular_products st.products l n) ∧
    (∀ e ∈ get_recommendations_for_user st l u n,
      e.product_id ∉ recent_products l u) ∧
    ((get_recommendations_for_user st l u n).map (fun e => e.score.getD 0)).Pairwise
      (fun a b => b ≤ a) ∧
    (get_recommendations_for_user st l u n).length ≤ n ∧
    (∀ pr ∈ aggregateRecs st (recent_products l u),
      pr.2.score.getD 0 = ((recent_products l u).map
        (fun s => simScoreOf (get_similar_products st s 20 (1/10)).1 pr.1)).sum) := by
  have hspec := foldl_addRec_spec
    ((recent_products l u).map (fun s => (get_similar_products st s 20 (1/10)).1)).flatten
    [] (by simp) (by simp)
  have hagg := aggregateRecs_eq_flatten st (recent_products l u)
  refine ⟨?_, ?_, ?_, ?_, ?_⟩
  · intro hempty
    rw [get_recommendations_for_user, if_pos hempty]
  · intro e he
    rw [get_recommendations_for_user] at he
    by_cases hempty : (recent_products l u).isEmpty
    · have h0 : recent_products l u = [] := List.isEmpty_iff.mp hempty
      rw [h0]
      exact List.not_mem_nil _
    · rw [if_neg hempty] at he
      have he2 := (sortDescBy_perm _ _).mem_iff.mp ((List.take_sublist _ _).subset he)
      rcases List.mem_map.mp he2 with ⟨pr, hpr, rfl⟩
      rcases List.mem_filter.mp hpr with ⟨hpr1, hpr2⟩
      have hco : pr.2.product_id = pr.1 := by
        rw [hagg] at hpr1
        exact hspec.1 pr hpr1
      rw [hco]
      simpa using hpr2
  · rw [get_recommendations_for_user]
    by_cases hempty : (recent_products l u).isEmpty
    · rw [if_pos hempty]
      apply pairwise_all
      intro a ha b hb
      rcases List.mem_map.mp ha with ⟨ea, hea, rfl⟩
      rcases List.mem_map.mp hb with ⟨eb, heb, rfl⟩
      rw [get_popular_products_score_none _ _ _ ea hea,
        get_popular_products_score_none _ _ _ eb heb]
    · rw [if_neg hempty, List.pairwise_map]
      exact List.Pairwise.sublist (List.take_sublist _ _)
        (sortDescBy_pairwise (fun e : RecEntry => e.score.getD 0)
          (((aggregateRecs st (recent_products l u)).filter
            (fun e => decide (e.1 ∉ recent_products l u))).map Prod.snd))
  · rw [get_recommendations_for_user]
    by_cases hempty : (recent_products l u).isEmpty
    · rw [if_pos hempty]
      exact get_popular_products_length _ _ _
    · rw [if_neg hempty]
      exact (List.length_take _ _).le.trans (min_le_left _ _)
  · intro pr hpr
    rw [hagg] at hpr
    rcases hspec.2.2.1 pr hpr with ⟨pr0, hpr0, _⟩ | ⟨_, hsum⟩
    · cases hpr0
    · rw [hsum, sum_filter_flatten, List.map_map]
      congr 1
      apply List.map_congr_left
      intro s hs
      simp only [Function.comp]
      exact filter_sum_eq_simScoreOf _ _
        (get_similar_products_pids_nodup st s 20 (1/10) hnodup)

theorem collect_all_pass (ps : List Product) (scores : List ℝ)
    (pidx n : Nat) (ms : ℚ) :
    ∀ (idxs : List Nat) (count : Nat),
      (∀ i ∈ idxs, ¬(scores.getD i 0 < (ms : ℝ))) →
      count + idxs.length < n →
      collectSimilar ps scores pidx n ms count idxs =
        (idxs.filter (fun i => decide (i ≠ pidx))).map
          (fun i => mkEntry (ps.getD i default) (scores.getD i 0))
  | [], _, _, _ => by rw [collectSimilar]; rfl
  | idx :: rest, count, hpass, hlen => by
    rw [collectSimilar]
    by_cases h1 : idx = pidx
    · rw [if_pos h1, List.filter_cons, if_neg (by simp [h1])]
      exact collect_all_pass ps scores pidx n ms rest count
        (fun i hi => hpass i (List.mem_cons_of_mem _ hi))
        (by simp only [List.length_cons] at hlen; omega)
    · rw [if_neg h1, if_neg (hpass idx (List.mem_cons_self _ _)),
        if_neg (by simp only [List.length_cons] at hlen; omega),
        List.filter_cons, if_pos (by simp [h1])]
      rw [List.map_cons]
      rw [collect_all_pass ps scores pidx n ms rest (count + 1)
        (fun i hi => hpass i (List.mem_cons_of_mem _ hi))
        (by simp only [List.length_cons] at hlen; omega)]

theorem get_similar_products_pid_mem_catalog (st : ContentState) (pid n : Nat)
    (ms : ℚ) :
    ∀ e ∈ (get_similar_products st pid n ms).1,
      e.product_id ∈ st.products.map Product.id := by
  rcases hfind : findIdx1 (fun p => p.id == pid) st.products with _ | pidx
  · simp [get_similar_products, hfind]
  · simp only [get_similar_products, hfind]
    intro e he
    rcases collectSimilar_mem _ _ _ _ _ _ _ _ he with ⟨i, hi, _, rfl, _⟩
    have hirange := (argsortNumpyDesc_perm_range _).mem_iff.mp hi
    rw [List.mem_range, calculate_similarity_length] at hirange
    have hmem : st.products.getD i default ∈ st.products := by
      rw [List.getD_eq_getElem st.products default hirange]
      exact List.getElem_mem hirange
    exact List.mem_map_of_mem Product.id hmem

theorem length_le_one_of_same_nodup_keys {d : List (Nat × RecEntry)}
    (hnd : (d.map Prod.fst).Nodup) (p : Nat × RecEntry → Bool) (a : Nat)
    (hall : ∀ pr ∈ d.filter p, pr.1 = a) : (d.filter p).length ≤ 1 := by
  have hndf : ((d.filter p).map Prod.fst).Nodup :=
    List.Nodup.sublist ((List.filter_sublist d).map Prod.fst) hnd
  rcases hf : d.filter p with _ | ⟨x, t⟩
  · simp
  · rcases t with _ | ⟨y, t2⟩
    · simp
    · exfalso
      rw [hf] at hndf hall
      have hx : x.1 = a := hall x (List.mem_cons_self _ _)
      have hy : y.1 = a := hall y (List.mem_cons_of_mem _ (List.mem_cons_self _ _))
      rw [List.map_cons, List.map_cons, List.nodup_cons] at hndf
      exact hndf.1 (by rw [hx, hy]; exact List.mem_cons_self _ _)

/-! ### An 11-product catalog exercising the recent-10 history window -/

def exPs11 : List Product :=
  (List.range 11).map (fun k =>
    { id := k + 1, title := "p", category := "A", price := 10, description := "",
      rating := some 1, review_count := 0 })

def exT11 : List (List ℚ) := List.replicate 11 [0]

def exSt11 : ContentState := ⟨exPs11, exT11⟩

def exL11 : List Interaction :=
  (List.range 11).map (fun k => ⟨1, k + 1, IType.view, 0, k + 1⟩)

theorem exPs11_getD {m : Nat} (hm : m < 11) : exPs11.getD m default =
    { id := m + 1, title := "p", category := "A", price := 10, description := "",
      rating := some 1, review_count := 0 } := by
  have hm2 : m < exPs11.length := by
    rw [exPs11, List.length_map, List.length_range]
    exact hm
  rw [List.getD_eq_getElem exPs11 default hm2]
  simp only [exPs11]
  rw [List.getElem_map, List.getElem_range]

theorem exT11_getD {m : Nat} (hm : m < 11) : exT11.getD m [] = [0] := by
  have hm2 : m < exT11.length := by
    rw [exT11, List.length_replicate]
    exact hm
  rw [List.getD_eq_getElem exT11 [] hm2]
  simp only [exT11]
  rw [List.getElem_replicate]

theorem exMaxPrice11 : maxCatalogPrice exPs11 = 10 := by
  have hmem := listMax1_mem (l := exPs11.map Product.price) (by
    rw [exPs11]
    simp)
  rcases List.mem_map.mp hmem with ⟨p, hp, hval⟩
  rcases List.mem_map.mp (show p ∈ (List.range 11).map _ from hp) with ⟨k, _, rfl⟩
  rw [maxCatalogPrice, ← hval]

theorem exSim11 {idx : Nat} (hidx : idx < 11) :
    calculate_similarity exPs11 exT11 idx = List.replicate 11 ((2:ℝ)/5) := by
  rw [calculate_similarity, show exPs11.length = 11 from by rw [exPs11]; simp]
  apply List.eq_replicate_iff.mpr
  refine ⟨by simp, ?_⟩
  intro b hb
  rcases List.mem_map.mp hb with ⟨j, hj, rfl⟩
  have hj11 : j < 11 := List.mem_range.mp hj
  rw [exT11_getD hidx, exT11_getD hj11]
  rw [show cosineSim [0] [0] = 0 from
    cosineSim_eq_zero_of_dot_eq_zero (by norm_num [dotQ])]
  rw [show category_similarity exPs11 idx j = 1 from by
    rw [category_similarity, exPs11_getD hidx, exPs11_getD hj11]
    simp]
  rw [show price_similarity exPs11 idx j = 1 from by
    rw [price_similarity, exPs11_getD hidx, exPs11_getD hj11, exMaxPrice11]
    norm_num]
  norm_num

theorem exArgsort11 : argsortNumpyDesc (List.replicate 11 ((2:ℝ)/5)) =
    [10, 9, 8, 7, 6, 5, 4, 3, 2, 1, 0] := by
  rw [argsortNumpyDesc, argsortAsc]
  rw [show (List.replicate 11 ((2:ℝ)/5)).enum =
    [(0, (2:ℝ)/5), (1, (2:ℝ)/5), (2, (2:ℝ)/5), (3, (2:ℝ)/5), (4, (2:ℝ)/5),
     (5, (2:ℝ)/5), (6, (2:ℝ)/5), (7, (2:ℝ)/5), (8, (2:ℝ)/5), (9, (2:ℝ)/5),
     (10, (2:ℝ)/5)] from rfl]
  rw [show sortAscBy Prod.snd
    [(0, (2:ℝ)/5), (1, (2:ℝ)/5), (2, (2:ℝ)/5), (3, (2:ℝ)/5), (4, (2:ℝ)/5),
     (5, (2:ℝ)/5), (6, (2:ℝ)/5), (7, (2:ℝ)/5), (8, (2:ℝ)/5), (9, (2:ℝ)/5),
     (10, (2:ℝ)/5)] =
    [(0, (2:ℝ)/5), (1, (2:ℝ)/5), (2, (2:ℝ)/5), (3, (2:ℝ)/5), (4, (2:ℝ)/5),
     (5, (2:ℝ)/5), (6, (2:ℝ)/5), (7, (2:ℝ)/5), (8, (2:ℝ)/5), (9, (2:ℝ)/5),
     (10, (2:ℝ)/5)] from by
    rw [sortAscBy]
    simp [insertAscBy]]
  rfl

/-- C10 counterexample: user 1 has interacted with 11 distinct products
(timestamps 1..11).  Only the 10 most recent (ids 2..11) are excluded; the
oldest history product (id 1) is similar to the recent ones and is returned
although it is present in the user's interaction history. -/
theorem content_user_history_counterexample :
    1 ∈ userInteractedPids exL11 1 ∧
    ∃ e ∈ get_recommendations_for_user exSt11 exL11 1 10, e.product_id = 1 := by
  refine ⟨by decide, ?_⟩
  have hrecent : recent_products exL11 1 = [11, 10, 9, 8, 7, 6, 5, 4, 3, 2] := by
    decide
  have hagg := aggregateRecs_eq_flatten exSt11 (recent_products exL11 1)
  have hspec := foldl_addRec_spec
    (((recent_products exL11 1).map
      (fun s => (get_similar_products exSt11 s 20 (1/10)).1)).flatten)
    [] (by simp) (by simp)
  rw [← hagg] at hspec
  have hfind11 : findIdx1 (fun p => p.id == 11) exSt11.products = some 10 := by decide
  have hlist11 : (get_similar_products exSt11 11 20 (1/10)).1 =
      ([10, 9, 8, 7, 6, 5, 4, 3, 2, 1, 0].filter (fun i => decide (i ≠ 10))).map
        (fun i => mkEntry (exPs11.getD i default)
          ((List.replicate 11 ((2:ℝ)/5)).getD i 0)) := by
    simp only [get_similar_products, hfind11]
    rw [show exSt11.products = exPs11 from rfl, show exSt11.tfidf = exT11 from rfl,
      exSim11 (by omega), exArgsort11]
    refine collect_all_pass exPs11 _ 10 20 (1/10) _ 0 ?_ (by decide)
    intro i hi
    have hi11 : i < 11 :=
      (by decide : ∀ j ∈ [10, 9, 8, 7, 6, 5, 4, 3, 2, 1, 0], j < 11) i hi
    have hgd : (List.replicate 11 ((2:ℝ)/5)).getD i 0 = (2:ℝ)/5 := by
      rw [List.getD_eq_getElem _ _ (by simpa using hi11), List.getElem_replicate]
    rw [hgd]
    push_cast
    norm_num
  have hpid1 : ∃ e ∈ (get_similar_products exSt11 11 20 (1/10)).1,
      e.product_id = 1 := by
    rw [hlist11]
    refine ⟨_, List.mem_map_of_mem _
      (show (0:Nat) ∈ [10, 9, 8, 7, 6, 5, 4, 3, 2, 1, 0].filter
        (fun i => decide (i ≠ 10)) from by decide), ?_⟩
    show (exPs11.getD 0 default).id = 1
    rw [exPs11_getD (by omega)]
  have h1key : (1:Nat) ∈ (aggregateRecs exSt11
      (recent_products exL11 1)).map Prod.fst := by
    refine (hspec.2.2.2 1).mpr (Or.inr ?_)
    rcases hpid1 with ⟨e, he, hpe⟩
    refine List.mem_map.mpr ⟨e, ?_, hpe⟩
    refine List.mem_flatten.mpr ⟨(get_similar_products exSt11 11 20 (1/10)).1, ?_, he⟩
    refine List.mem_map.mpr ⟨11, ?_, rfl⟩
    rw [hrecent]
    decide
  rcases List.mem_map.mp h1key with ⟨pr, hpr, hpr1⟩
  have hprf : pr ∈ (aggregateRecs exSt11 (recent_products exL11 1)).filter
      (fun e => decide (e.1 ∉ recent_products exL11 1)) := by
    refine List.mem_filter.mpr ⟨hpr, ?_⟩
    rw [hpr1, hrecent]
    decide
  have hallkeys : ∀ q ∈ (aggregateRecs exSt11 (recent_products exL11 1)).filter
      (fun e => decide (e.1 ∉ recent_products exL11 1)), q.1 = 1 := by
    intro q hq
    rcases List.mem_filter.mp hq with ⟨hq1, hq2⟩
    rcases (hspec.2.2.2 q.1).mp (List.mem_map_of_mem Prod.fst hq1) with hk | hk
    · simp at hk
    · rcases List.mem_map.mp hk with ⟨e, he, hpe⟩
      rcases List.mem_flatten.mp he with ⟨rs, hrs, hers⟩
      rcases List.mem_map.mp hrs with ⟨src, _, rfl⟩
      have hcat := get_similar_products_pid_mem_catalog exSt11 src 20 (1/10) e hers
      have hids : exSt11.products.map Product.id =
          [1, 2, 3, 4, 5, 6, 7, 8, 9, 10, 11] := by decide
      rw [hids, hpe] at hcat
      rw [hrecent] at hq2
      have hq2b : q.1 ∉ ([11, 10, 9, 8, 7, 6, 5, 4, 3, 2] : List Nat) := by
        simpa using hq2
      simp only [List.mem_cons, List.not_mem_nil, or_false] at hcat hq2b
      omega
  have hflen : ((aggregateRecs exSt11 (recent_products exL11 1)).filter
      (fun e => decide (e.1 ∉ recent_products exL11 1))).length ≤ 1 :=
    length_le_one_of_same_nodup_keys hspec.2.1 _ 1 hallkeys
  rw [get_recommendations_for_user, if_neg (by rw [hrecent]; decide)]
  have hsortlen : (sortDescBy (fun e : RecEntry => e.score.getD 0)
      (((aggregateRecs exSt11 (recent_products exL11 1)).filter
        (fun e => decide (e.1 ∉ recent_products exL11 1))).map Prod.snd)).length ≤ 10 := by
    rw [(sortDescBy_perm _ _).length_eq, List.length_map]
    omega
  rw [List.take_of_length_le hsortlen]
  refine ⟨pr.2, (sortDescBy_perm _ _).mem_iff.mpr
    (List.mem_map_of_mem Prod.snd hprf), ?_⟩
  rw [hspec.1 pr hpr]
  exact hpr1

/-- Witness for the amended C10 at the same 11-product state. -/
theorem content_user_recommendations_witness :
    ((exSt11.products.map Product.id).Nodup) ∧
    (get_recommendations_for_user exSt11 exL11 1 10).length ≤ 10 :=
  ⟨by decide,
    (content_user_recommendations exSt11 exL11 1 10 (by decide)).2.2.2.1⟩

end Recova
